import Mathlib

/-!
Verification of the arena-backed B+ tree (fixed fan-out `M`, three point-lookup
strategies) against its specification.

The embedding below is a shallow model of the C++ source:
* `Arena` models the bump allocator (`size_t` arithmetic is taken modulo `2^64`,
  as in the source).
* `Node` models `BPlusTree<int, int, M>::Node`: a leaf carries its
  `(key, value)` pairs `kvs` (the first `num_keys` slots of the `keys`/`values`
  arrays), an internal node carries its separator keys `ks` and children `cs`.
  The field `gk` gives the contents of the physical `keys` array at slots
  `≥ num_keys`: those slots are uninitialized or stale data; only the SIMD
  scan ever reads them.  Theorems about the SIMD routines quantify over all
  trees and hence over all contents of these indeterminate slots.  Where the
  source leaves a fresh array uninitialized we fill `gk` with an arbitrary
  fixed value (`0`); no theorem in this file depends on that choice.
* Keys and values are `Int` (the benchmark instantiates `BPlusTree<int, int>`;
  `_mm256_cmpgt_epi32` / `_mm256_cmpeq_epi32` on values that are 32-bit
  integers agree with the mathematical `<` / `=` used here).
-/

namespace OptMap

/-! ### Arena (bump allocator) -/

/-- `2^64`, the modulus of `size_t` arithmetic. -/
def W64 : Nat := 2 ^ 64

/-- Arena state: current bump `off`set and total `cap`acity
(`Arena::offset`, `Arena::capacity`). -/
structure Arena where
  off : Nat
  cap : Nat
  deriving DecidableEq

/-- `(bytes + 63) & ~63` on `size_t`: the alignment computation of
`Arena::allocate`. -/
def alignUp (bytes : Nat) : Nat := ((bytes + 63) % W64) &&& (W64 - 64)

/-- Mathematical rounding of `bytes` up to a multiple of 64 (what the
specification's words "rounds `bytes` up to a multiple of 64" denote). -/
def roundUp64 (bytes : Nat) : Nat := ((bytes + 63) / 64) * 64

/-- `Arena::allocate`: computes the aligned size, throws when
`offset + aligned_bytes > capacity` (a `size_t` comparison, hence the sum is
reduced mod `2^64`), otherwise returns the old offset (the returned pointer,
as an offset from `memory`) and advances `offset`.  The state is returned
unchanged on the throwing path, mirroring that the `throw` happens before any
mutation. -/
def Arena.allocate (a : Arena) (bytes : Nat) : Except Unit Nat × Arena :=
  if (a.off + alignUp bytes) % W64 > a.cap then
    (Except.error (), a)
  else
    (Except.ok a.off, ⟨(a.off + alignUp bytes) % W64, a.cap⟩)

/-- `Arena::get_used_memory`. -/
def Arena.used (a : Arena) : Nat := a.off

/-- Run a sequence of allocation requests, failing if any single one throws. -/
def Arena.allocSeq (a : Arena) : List Nat → Option Arena
  | [] => some a
  | b :: bs =>
    match a.allocate b with
    | (Except.ok _, a₁) => a₁.allocSeq bs
    | (Except.error _, _) => none

/-! ### Node -/

/-- A B+ tree node (`BPlusTree::Node`).  `leaf kvs gk`: a leaf whose first
`num_keys = kvs.length` slots hold the pairs `kvs`; `internal ks cs gk`: an
internal node with separator keys `ks` and children `cs`
(`num_keys = ks.length`, the first `ks.length + 1` child slots are `cs`).
`gk j` is the content of physical slot `j` of the `keys` array for
`j ≥ num_keys` (indeterminate data). -/
inductive Node where
  | leaf (kvs : List (Int × Int)) (gk : Nat → Int)
  | internal (ks : List Int) (cs : List Node) (gk : Nat → Int)

/-- Content of physical slot `j` of a `keys` array whose first `ks.length`
slots hold `ks` and whose remaining slots hold `gk`. -/
def keyAt (ks : List Int) (gk : Nat → Int) (j : Nat) : Int :=
  if h : j < ks.length then ks.get ⟨j, h⟩ else gk j

/-- The empty tree: the initial root, an empty leaf (`BPlusTree::BPlusTree`). -/
def emptyTree : Node := .leaf [] (fun _ => 0)

/-- Insertion into an array at index `i` by shifting the elements at
`i, …, len-1` one slot right and writing the new element at `i`
(the shift loops of `insert_recursive`). -/
def insertAt (i : Nat) (x : α) (l : List α) : List α :=
  l.take i ++ x :: l.drop i

/-- Removing index `j` from an array by shifting the subsequent elements one
slot left (the shift loop of `remove_recursive`). -/
def eraseAt (j : Nat) (l : List α) : List α :=
  l.take j ++ l.drop (j + 1)

/-! ### Find: linear scan -/

/-- Internal-node descent index of the linear find (and of `remove_recursive`):
`while (i < num_keys && key >= keys[i]) i++`, i.e. the first index whose key
is strictly greater than `key` (`num_keys` if none). -/
def linChildIdx (key : Int) (ks : List Int) : Nat :=
  ks.findIdx (fun k => decide (key < k))

/-- Leaf scan of `findLinear`: return the value at the first slot whose key
equals `key`. -/
def linLeafFind (key : Int) (kvs : List (Int × Int)) : Option Int :=
  let j := kvs.findIdx (fun p => decide (p.1 = key))
  if h : j < kvs.length then some (kvs.get ⟨j, h⟩).2 else none

mutual
/-- `BPlusTree::findLinear`. -/
def findLinear (key : Int) : Node → Option Int
  | .leaf kvs _ => linLeafFind key kvs
  | .internal ks cs _ => findLinearAt key (linChildIdx key ks) cs

/-- Continue `findLinear` in `children[i]` (`none` when the child slot is out
of range, which never happens on a well-formed tree). -/
def findLinearAt (key : Int) : Nat → List Node → Option Int
  | _, [] => none
  | 0, c :: _ => findLinear key c
  | i + 1, _ :: cs => findLinearAt key i cs
end

/-! ### Insertion -/

/-- Descent / insertion index of `insert_recursive`:
`while (i < num_keys && key > keys[i]) i++`, i.e. the first index whose key is
`≥ key` (`num_keys` if none).  Note this differs from `linChildIdx`: at an
internal node, insertion descends to the LEFT of a separator equal to `key`
while the find routines descend to its right. -/
def insChildIdx (key : Int) (ks : List Int) : Nat :=
  ks.findIdx (fun k => decide (key ≤ k))

/-- `BPlusTree::split_leaf`: move slots `[mid, num_keys)` into a new leaf,
truncate the old leaf to `mid` entries, copy up the new leaf's first key.
The old leaf's physical slots `≥ mid` still hold the moved-out keys, hence its
new indeterminate tail is `keyAt (kvs.map fst) gk`; the fresh node's
uninitialized tail is modeled by `0`. -/
def splitLeaf (M : Nat) (kvs : List (Int × Int)) (gk : Nat → Int) :
    Node × Option (Int × Node) :=
  let mid := M / 2
  let right := kvs.drop mid
  (.leaf (kvs.take mid) (fun j => keyAt (kvs.map Prod.fst) gk j),
    some ((right.headD (0, 0)).1, .leaf right (fun _ => 0)))

/-- `BPlusTree::split_internal`: the key at `mid` moves up, keys
`[mid+1, num_keys)` and children `[mid+1, num_keys+1)` move into a new
internal node, the old node is truncated to `mid` keys. -/
def splitInternal (M : Nat) (ks : List Int) (cs : List Node) (gk : Nat → Int) :
    Node × Option (Int × Node) :=
  let mid := M / 2
  (.internal (ks.take mid) (cs.take (mid + 1)) (fun j => keyAt ks gk j),
    some (ks.getD mid 0,
      .internal (ks.drop (mid + 1)) (cs.drop (mid + 1)) (fun _ => 0)))

mutual
/-- `BPlusTree::insert_recursive`.  Returns the updated node and, when the
node split, the copied/moved-up median together with the new right sibling. -/
def insertRec (M : Nat) (key value : Int) : Node → Node × Option (Int × Node)
  | .leaf kvs gk =>
    let i := insChildIdx key (kvs.map Prod.fst)
    if 0 < i ∧ (kvs.getD (i - 1) (0, 0)).1 = key then
      (.leaf (kvs.set (i - 1) ((kvs.getD (i - 1) (0, 0)).1, value)) gk, none)
    else
      let kvs' := insertAt i (key, value) kvs
      if M ≤ kvs'.length then splitLeaf M kvs' gk
      else (.leaf kvs' gk, none)
  | .internal ks cs gk =>
    let i := insChildIdx key ks
    match insertRecAt M key value i cs with
    | none => (.internal ks cs gk, none)
    | some (cs₁, none) => (.internal ks cs₁ gk, none)
    | some (cs₁, some (med, sib)) =>
      let ks' := insertAt i med ks
      let cs' := insertAt (i + 1) sib cs₁
      if M ≤ ks'.length then splitInternal M ks' cs' gk
      else (.internal ks' cs' gk, none)

/-- Recurse into `children[i]`, returning the updated child list and the
child's split information (`none` when the child slot is out of range, which
never happens on a well-formed tree). -/
def insertRecAt (M : Nat) (key value : Int) :
    Nat → List Node → Option (List Node × Option (Int × Node))
  | _, [] => none
  | 0, c :: cs =>
    let r := insertRec M key value c
    some (r.1 :: cs, r.2)
  | i + 1, c :: cs =>
    match insertRecAt M key value i cs with
    | none => none
    | some (cs', sp) => some (c :: cs', sp)
end

/-- `BPlusTree::insert`: run the recursive insert on the root and grow a new
root when the old root split. -/
def insert (M : Nat) (key value : Int) (root : Node) : Node :=
  match insertRec M key value root with
  | (root', none) => root'
  | (root', some (med, sib)) => .internal [med] [root', sib] (fun _ => 0)

/-- Insert a list of `(key, value)` operations in order. -/
def insertList (M : Nat) (ops : List (Int × Int)) (t : Node) : Node :=
  ops.foldl (fun acc p => insert M p.1 p.2 acc) t

/-! ### Find: binary search -/

/-- The binary-search loop shared by the two searches in `findBinary`
(the source spells the loop out twice, once with `keys[mid] <= key` and once
with `keys[mid] < key`; the predicate `p` is that comparison).  State is
`(lo, hi, i)`; the loop runs while `lo <= hi`, moving `lo` past `mid` when
`p keys[mid]` holds and otherwise recording `i := mid` and moving `hi` below
`mid`.  Returns the final `(i, hi)`.  Note `(hi - lo) / 2` is a division of a
non-negative number, where Lean's integer division agrees with C++'s.
The `fuel` argument only bounds the iteration count so that the recursion is
structural; since `hi + 1 - lo` strictly decreases on every iteration, the
call sites' `fuel = (hi + 1 - lo).toNat` makes the bound never bite. -/
def bsLoop (p : Int → Bool) (ks : List Int) :
    (fuel : Nat) → Int → Int → Int → Int × Int
  | 0, _, hi, i => (i, hi)
  | fuel + 1, lo, hi, i =>
    if lo ≤ hi then
      let mid := lo + (hi - lo) / 2
      if p (ks.getD mid.toNat 0) then bsLoop p ks fuel (mid + 1) hi i
      else bsLoop p ks fuel lo (mid - 1) mid
    else (i, hi)

/-- Internal-node child index of `findBinary`: the loop with predicate
`keys[mid] <= key` followed by the post-processing
`if (i == hi) { if (keys[i] > key) children[i] else children[i+1] } else
children[i]`. -/
def binChildIdx (key : Int) (ks : List Int) : Nat :=
  let n : Int := ks.length
  let r := bsLoop (fun k => decide (k ≤ key)) ks ks.length 0 (n - 1) (n - 1)
  if r.1 = r.2 then
    if key < ks.getD r.1.toNat 0 then r.1.toNat else r.1.toNat + 1
  else r.1.toNat

/-- Leaf search of `findBinary`: the loop with predicate `keys[mid] < key`
followed by `if (i >= 0 && i < num_keys && keys[i] == key) return values[i]`. -/
def binLeafFind (key : Int) (kvs : List (Int × Int)) : Option Int :=
  let n : Int := kvs.length
  let r := bsLoop (fun k => decide (k < key)) (kvs.map Prod.fst) kvs.length 0
    (n - 1) (n - 1)
  if 0 ≤ r.1 ∧ r.1 < n ∧ (kvs.getD r.1.toNat (0, 0)).1 = key then
    some ((kvs.getD r.1.toNat (0, 0)).2)
  else none

mutual
/-- `BPlusTree::findBinary`. -/
def findBinary (key : Int) : Node → Option Int
  | .leaf kvs _ => binLeafFind key kvs
  | .internal ks cs _ => findBinaryAt key (binChildIdx key ks) cs

/-- Continue `findBinary` in `children[i]` (`none` when the child slot is out
of range, which never happens on a well-formed tree). -/
def findBinaryAt (key : Int) : Nat → List Node → Option Int
  | _, [] => none
  | 0, c :: _ => findBinary key c
  | i + 1, _ :: cs => findBinaryAt key i cs
end

/-! ### Find: SIMD scan

`findSIMD` (the `KeyType = int` specialization) processes the keys array in
chunks of 8 lanes.  For a chunk based at `i`, `_mm256_cmpgt_epi32` /
`_mm256_cmpeq_epi32` plus `_mm256_movemask_ps` produce a bitmask whose bit
`b` is set iff lane `b` satisfies the comparison, and `__builtin_ctz` selects
the lowest set bit; `(List.range 8).findIdx? (fun b => …)` models exactly
that.  Lanes at physical slots `≥ num_keys` read the indeterminate tail of
the keys array (`keyAt`).  Prefetch intrinsics have no observable effect and
are not modeled. -/

/-- Descent loop of `findSIMD` at an internal node: scan chunks of 8 lanes
with a greater-than comparison; on a non-zero mask take the lowest set bit
and accept it only if its absolute index is `< num_keys`; default to
`num_keys` (rightmost child).  `fuel` only bounds the iteration count so the
recursion is structural; `i` advances by 8 per iteration so the call sites'
`fuel = n` makes the bound never bite. -/
def simdChildLoop (key : Int) (n : Nat) (f : Nat → Int) :
    (fuel : Nat) → Nat → Nat
  | 0, _ => n
  | fuel + 1, i =>
    if i < n then
      match (List.range 8).findIdx? (fun b => decide (key < f (i + b))) with
      | some bp =>
        if i + bp < n then i + bp else simdChildLoop key n f fuel (i + 8)
      | none => simdChildLoop key n f fuel (i + 8)
    else n

/-- Leaf scan of `findSIMD`: chunks of 8 lanes with an equality comparison;
a lowest set bit whose absolute index is `< num_keys` yields the value at
that slot.  `fuel` as in `simdChildLoop`. -/
def simdLeafLoop (key : Int) (kvs : List (Int × Int)) (gk : Nat → Int) :
    (fuel : Nat) → Nat → Option Int
  | 0, _ => none
  | fuel + 1, i =>
    if i < kvs.length then
      match (List.range 8).findIdx?
          (fun b => decide (keyAt (kvs.map Prod.fst) gk (i + b) = key)) with
      | some bp =>
        if i + bp < kvs.length then some ((kvs.getD (i + bp) (0, 0)).2)
        else simdLeafLoop key kvs gk fuel (i + 8)
      | none => simdLeafLoop key kvs gk fuel (i + 8)
    else none

mutual
/-- `BPlusTree::findSIMD` (the 32-bit integer key specialization). -/
def findSIMD (key : Int) : Node → Option Int
  | .leaf kvs gk => simdLeafLoop key kvs gk kvs.length 0
  | .internal ks cs gk =>
    findSIMDAt key (simdChildLoop key ks.length (keyAt ks gk) ks.length 0) cs

/-- Continue `findSIMD` in `children[i]` (`none` when the child slot is out
of range, which never happens on a well-formed tree). -/
def findSIMDAt (key : Int) : Nat → List Node → Option Int
  | _, [] => none
  | 0, c :: _ => findSIMD key c
  | i + 1, _ :: cs => findSIMDAt key i cs
end

/-- `BPlusTree::findSIMD` for key types other than 32-bit `int`: the
`enable_if` overload that simply calls `findBinary`. -/
def findSIMDFallback (key : Int) (t : Node) : Option Int :=
  findBinary key t

/-! ### Remove -/

mutual
/-- `BPlusTree::remove_recursive`: descend with the `key >= keys[i]` rule
(the same index as the find routines); at the leaf, linearly search for the
first slot equal to `key` and, if found, shift the subsequent pairs left and
decrement `num_keys`.  After the shift the physical slots `≥ num_keys - 1`
hold stale data, hence the updated indeterminate tail. -/
def removeRec (key : Int) : Node → Node
  | .leaf kvs gk =>
    let j := kvs.findIdx (fun p => decide (p.1 = key))
    if j < kvs.length then
      .leaf (eraseAt j kvs) (fun i => keyAt (kvs.map Prod.fst) gk i)
    else .leaf kvs gk
  | .internal ks cs gk =>
    .internal ks (removeRecAt key (linChildIdx key ks) cs) gk

/-- Continue `removeRec` in `children[i]`, replacing that child in the list
(the list is unchanged when `i` is out of range, which never happens on a
well-formed tree). -/
def removeRecAt (key : Int) : Nat → List Node → List Node
  | _, [] => []
  | 0, c :: cs => removeRec key c :: cs
  | i + 1, c :: cs => c :: removeRecAt key i cs
end

/-- `BPlusTree::remove`. -/
def remove (key : Int) (root : Node) : Node := removeRec key root

/-! ### Observations -/

/-- The `(key, value)` pairs in the valid slots of a node (a leaf's entries;
an internal node holds no entries itself). -/
def entriesOf : Node → List (Int × Int)
  | .leaf kvs _ => kvs
  | .internal _ _ _ => []

mutual
/-- Number of leaf slots in the whole subtree carrying key `k`. -/
def countKey (k : Int) : Node → Nat
  | .leaf kvs _ => (kvs.filter (fun p => decide (p.1 = k))).length
  | .internal _ cs _ => countKeyAll k cs

/-- Sum of `countKey` over a list of subtrees. -/
def countKeyAll (k : Int) : List Node → Nat
  | [] => 0
  | c :: cs => countKey k c + countKeyAll k cs
end

/-- Strict ascending order of a key array (`keys[i] < keys[i+1]`). -/
def sortedLtB : List Int → Bool
  | [] => true
  | [_] => true
  | a :: b :: l => decide (a < b) && sortedLtB (b :: l)

mutual
/-- Every node of the subtree has strictly ascending keys within
`[0, num_keys)`. -/
def orderedB : Node → Bool
  | .leaf kvs _ => sortedLtB (kvs.map Prod.fst)
  | .internal ks cs _ => sortedLtB ks && orderedAllB cs

/-- `orderedB` for every node in the list. -/
def orderedAllB : List Node → Bool
  | [] => true
  | c :: cs => orderedB c && orderedAllB cs
end

mutual
/-- Every leaf of the subtree lies at depth exactly `d`. -/
def allDepth : Node → Nat → Bool
  | .leaf _ _, d => d == 0
  | .internal _ _ _, 0 => false
  | .internal _ cs _, d + 1 => allDepthAll cs d

/-- `allDepth · d` for every node in the list. -/
def allDepthAll : List Node → Nat → Bool
  | [], _ => true
  | c :: cs, d => allDepth c d && allDepthAll cs d
end

/-- Is the root node a leaf? -/
def isLeafB : Node → Bool
  | .leaf _ _ => true
  | .internal _ _ _ => false

/-- `num_keys` of the root node. -/
def numKeysRoot : Node → Nat
  | .leaf kvs _ => kvs.length
  | .internal ks _ _ => ks.length

mutual
/-- Does some leaf slot of the subtree carry key `k`? -/
def hasKeyB (k : Int) : Node → Bool
  | .leaf kvs _ => kvs.any (fun p => decide (p.1 = k))
  | .internal _ cs _ => hasKeyAnyB k cs

/-- `hasKeyB` for some node of the list. -/
def hasKeyAnyB (k : Int) : List Node → Bool
  | [] => false
  | c :: cs => hasKeyB k c || hasKeyAnyB k cs
end

mutual
/-- Every key of the subtree (leaf keys and separators) is `< b`. -/
def allKeysLtB (b : Int) : Node → Bool
  | .leaf kvs _ => kvs.all (fun p => decide (p.1 < b))
  | .internal ks cs _ => ks.all (fun k => decide (k < b)) && allKeysLtAllB b cs

/-- `allKeysLtB` for every node of the list. -/
def allKeysLtAllB (b : Int) : List Node → Bool
  | [] => true
  | c :: cs => allKeysLtB b c && allKeysLtAllB b cs
end

mutual
/-- Every key of the subtree (leaf keys and separators) is `≥ b`. -/
def allKeysGeB (b : Int) : Node → Bool
  | .leaf kvs _ => kvs.all (fun p => decide (b ≤ p.1))
  | .internal ks cs _ => ks.all (fun k => decide (b ≤ k)) && allKeysGeAllB b cs

/-- `allKeysGeB` for every node of the list. -/
def allKeysGeAllB (b : Int) : List Node → Bool
  | [] => true
  | c :: cs => allKeysGeB b c && allKeysGeAllB b cs
end

mutual
/-- Structural well-formedness: every internal node has at least one key,
at most `M` keys and exactly `num_keys + 1` children; every leaf has at most
`M` entries. -/
def wfB (M : Nat) : Node → Bool
  | .leaf kvs _ => decide (kvs.length ≤ M)
  | .internal ks cs _ =>
    decide (1 ≤ ks.length) && decide (ks.length ≤ M) &&
      (cs.length == ks.length + 1) && wfAllB M cs

/-- `wfB` for every node of the list. -/
def wfAllB (M : Nat) : List Node → Bool
  | [] => true
  | c :: cs => wfB M c && wfAllB M cs
end

mutual
/-- Separator invariant: at every internal node with keys `ks` and children
`cs`, every key in `cs[i]` is `< ks[i]` and every key in `cs[i+1]` is
`≥ ks[i]`. -/
def sepB : Node → Bool
  | .leaf _ _ => true
  | .internal ks cs _ =>
    (cs.zip ks).all (fun p => allKeysLtB p.2 p.1) &&
      ((cs.drop 1).zip ks).all (fun p => allKeysGeB p.2 p.1) &&
      sepAllB cs

/-- `sepB` for every node of the list. -/
def sepAllB : List Node → Bool
  | [] => true
  | c :: cs => sepB c && sepAllB cs
end

mutual
/-- Height of the leftmost root-to-leaf path. -/
def heightOf : Node → Nat
  | .leaf _ _ => 0
  | .internal _ cs _ => heightHead cs + 1

/-- Height of the first node of the list (`0` for an empty list). -/
def heightHead : List Node → Nat
  | [] => 0
  | c :: _ => heightOf c
end

/-- A valid tree: structurally well formed, node-locally ordered, separator
invariant, and balanced (every leaf at the same depth). -/
def validB (M : Nat) (t : Node) : Bool :=
  wfB M t && orderedB t && sepB t && allDepth t (heightOf t)

mutual
/-- Every node of the subtree has `num_keys < M` (strictly below the
capacity-`M` arrays; equality is only ever transient at the split check). -/
def belowCapB (M : Nat) : Node → Bool
  | .leaf kvs _ => decide (kvs.length < M)
  | .internal ks cs _ => decide (ks.length < M) && belowCapAllB M cs

/-- `belowCapB` for every node of the list. -/
def belowCapAllB (M : Nat) : List Node → Bool
  | [] => true
  | c :: cs => belowCapB M c && belowCapAllB M cs
end

mutual
/-- Observational equality of trees: equal structure, separator keys and leaf
entries; the indeterminate array tails (`gk`) are ignored. -/
def obsEqB : Node → Node → Bool
  | .leaf kvs _, .leaf kvs₂ _ => kvs == kvs₂
  | .internal ks cs _, .internal ks₂ cs₂ _ => ks == ks₂ && obsEqAllB cs cs₂
  | _, _ => false

/-- `obsEqB` pointwise on two lists of equal length. -/
def obsEqAllB : List Node → List Node → Bool
  | [], [] => true
  | c :: cs, d :: ds => obsEqB c d && obsEqAllB cs ds
  | _, _ => true && false
end

/-! ### The specification's remove algorithm -/

/-- Modelled from the spec: the descent rule of `remove` as the specification
words it, "descend using the standard rule", i.e. "into the child after the
last separator ≤ key": the number of separators that are `≤ key`. -/
def specChildIdx (key : Int) (ks : List Int) : Nat :=
  ks.countP (fun k => decide (k ≤ key))

mutual
/-- Modelled from the spec: `remove(key)` per §4.5 of the specification —
descend by the standard rule; at the leaf, linearly search for equality and,
if found, remove that one `(key, value)` pair (shift the subsequent pairs
left, decrement `num_keys`); return silently if absent.  No other node is
modified and no rebalancing is performed.  The spec does not constrain the
indeterminate array tails, so this model leaves them untouched; comparisons
with the implementation are up to `obsEqB`. -/
def removeSpec (key : Int) : Node → Node
  | .leaf kvs gk =>
    .leaf (kvs.eraseP (fun p => decide (p.1 = key))) gk
  | .internal ks cs gk =>
    .internal ks (removeSpecAt key (specChildIdx key ks) cs) gk

/-- Continue `removeSpec` in the child at the descent index, replacing that
child in the list. -/
def removeSpecAt (key : Int) : Nat → List Node → List Node
  | _, [] => []
  | 0, c :: cs => removeSpec key c :: cs
  | i + 1, c :: cs => c :: removeSpecAt key i cs
end

/-! ### Arena lemmas -/

theorem W64_eq : W64 = 18446744073709551616 := by norm_num [W64]

/-- Masking with `~63` on a 64-bit quantity rounds down to a multiple of 64. -/
theorem land_mask_eq (x : Nat) (hx : x < W64) :
    x &&& (W64 - 64) = x / 64 * 64 := by
  have h1 : x / 64 * 64 = (x >>> 6) <<< 6 := by
    rw [Nat.shiftLeft_eq, Nat.shiftRight_eq_div_pow]
  have h2 : W64 - 64 = (2 ^ 58 - 1) <<< 6 := by
    rw [Nat.shiftLeft_eq]
    norm_num [W64]
  rw [h1, h2]
  apply Nat.eq_of_testBit_eq
  intro i
  rw [Nat.testBit_and, Nat.testBit_shiftLeft, Nat.testBit_shiftLeft,
    Nat.testBit_shiftRight, Nat.testBit_two_pow_sub_one]
  by_cases h6 : 6 ≤ i
  · have h66 : 6 + (i - 6) = i := by omega
    by_cases h64 : i < 64
    · have h58 : i - 6 < 58 := by omega
      simp [h6, h66, h58, ge_iff_le]
    · have hfalse : x.testBit i = false := by
        apply Nat.testBit_lt_two_pow
        calc x < W64 := hx
          _ = 2 ^ 64 := rfl
          _ ≤ 2 ^ i := Nat.pow_le_pow_right (by norm_num) (by omega)
      have h58 : ¬ (i - 6 < 58) := by omega
      simp [h6, h66, h58, hfalse, ge_iff_le]
  · simp [ge_iff_le, h6]

/-- `bytes` never exceeds its 64-byte round-up. -/
theorem le_roundUp64 (bytes : Nat) : bytes ≤ roundUp64 bytes := by
  unfold roundUp64
  omega

/-- When the round-up does not overflow 64 bits, the source's
`(bytes + 63) & ~63` equals the mathematical round-up to a multiple of 64. -/
theorem alignUp_eq_roundUp (bytes : Nat) (h : bytes + 63 < W64) :
    alignUp bytes = roundUp64 bytes := by
  unfold alignUp roundUp64
  rw [Nat.mod_eq_of_lt h, land_mask_eq _ h]

/-- One-step behavior of `Arena::allocate` in the absence of `size_t`
overflow. -/
theorem allocate_spec (a : Arena) (bytes : Nat)
    (h : a.off + roundUp64 bytes < W64) :
    alignUp bytes = roundUp64 bytes ∧
    ((a.allocate bytes).1 = Except.error () ↔ a.cap < a.off + roundUp64 bytes) ∧
    (a.off + roundUp64 bytes ≤ a.cap →
      (a.allocate bytes).1 = Except.ok a.off ∧
      (a.allocate bytes).2 = ⟨a.off + roundUp64 bytes, a.cap⟩) := by
  have hW : W64 = 18446744073709551616 := W64_eq
  have hru : roundUp64 bytes = (bytes + 63) / 64 * 64 := rfl
  have hb : bytes + 63 < W64 := by omega
  have ha : alignUp bytes = roundUp64 bytes := alignUp_eq_roundUp bytes hb
  have hmod : (a.off + alignUp bytes) % W64 = a.off + roundUp64 bytes := by
    rw [ha]
    exact Nat.mod_eq_of_lt h
  refine ⟨ha, ?_, ?_⟩
  · unfold Arena.allocate
    rw [hmod]
    by_cases hc : a.cap < a.off + roundUp64 bytes
    · simp [hc]
    · simp [hc]
  · intro hle
    unfold Arena.allocate
    rw [hmod]
    have : ¬ a.cap < a.off + roundUp64 bytes := by omega
    simp [this]

/-- `allocSeq` accumulates the 64-byte-rounded request sizes into the offset
(no overflow along the way). -/
theorem allocSeq_used (reqs : List Nat) :
    ∀ (a a' : Arena), a.off + (reqs.map roundUp64).sum < W64 →
      a.allocSeq reqs = some a' →
      a'.used = a.used + (reqs.map roundUp64).sum ∧ a'.cap = a.cap := by
  induction reqs with
  | nil =>
    intro a a' _ hrun
    simp only [Arena.allocSeq, Option.some.injEq] at hrun
    simp [← hrun, Arena.used]
  | cons b bs ih =>
    intro a a' hof hrun
    have hstep : a.off + roundUp64 b < W64 := by
      have := (bs.map roundUp64).sum.zero_le
      simp only [List.map_cons, List.sum_cons] at hof
      omega
    simp only [Arena.allocSeq] at hrun
    rcases hcase : a.allocate b with ⟨res, a₁⟩
    rw [hcase] at hrun
    cases res with
    | error e =>
      exact absurd hrun (by simp)
    | ok p =>
      have hspec := allocate_spec a b hstep
      have hok : ¬ (a.allocate b).1 = Except.error () := by
        rw [hcase]
        simp
      have hle : a.off + roundUp64 b ≤ a.cap := by
        by_contra hgt
        exact hok (hspec.2.1.mpr (by omega))
      have ha₁ : a₁ = ⟨a.off + roundUp64 b, a.cap⟩ := by
        have := (hspec.2.2 hle).2
        rw [hcase] at this
        exact this
      have hof₁ : a₁.off + (bs.map roundUp64).sum < W64 := by
        rw [ha₁]
        show a.off + roundUp64 b + (bs.map roundUp64).sum < W64
        simp only [List.map_cons, List.sum_cons] at hof
        omega
      have := ih a₁ a' hof₁ hrun
      rw [ha₁] at this
      simp only [List.map_cons, List.sum_cons, Arena.used] at this ⊢
      omega

/-! ### Claim theorems: arena -/

/-- C8, counterexample: the claim "allocate rounds `bytes` up to a multiple
of 64 and fails exactly when `offset + rounded > capacity`" is false as
stated: at offset `0`, capacity `64`, the request `2^64 - 1` has mathematical
round-up `2^64 > 64`, so the claim demands failure, yet the `size_t`
computation `(bytes + 63) & ~63` wraps to `0` and the call succeeds without
advancing the offset. -/
theorem arena_allocate_overflow_cex :
    (Arena.allocate ⟨0, 64⟩ (2 ^ 64 - 1)).1 = Except.ok 0 ∧
    (Arena.allocate ⟨0, 64⟩ (2 ^ 64 - 1)).2 = ⟨0, 64⟩ ∧
    64 < 0 + roundUp64 (2 ^ 64 - 1) := by
  refine ⟨rfl, rfl, ?_⟩
  have : roundUp64 (2 ^ 64 - 1) = 18446744073709551616 := by
    norm_num [roundUp64]
  omega

/-- C8 (amended): provided `offset + roundUp64 bytes` does not overflow
`size_t`, `allocate(bytes)` rounds `bytes` up to a multiple of 64, fails
exactly when `offset + rounded > capacity`, and otherwise returns the
current offset and advances the offset by the rounded amount; consequently a
successful allocation sequence whose rounded total does not overflow leaves
`used()` equal to the initial offset plus the sum of the rounded sizes. -/
theorem arena_allocate_amended :
    (∀ (a : Arena) (bytes : Nat), a.off + roundUp64 bytes < W64 →
      alignUp bytes = roundUp64 bytes ∧
      ((a.allocate bytes).1 = Except.error () ↔
        a.cap < a.off + roundUp64 bytes) ∧
      (a.off + roundUp64 bytes ≤ a.cap →
        (a.allocate bytes).1 = Except.ok a.off ∧
        (a.allocate bytes).2 = ⟨a.off + roundUp64 bytes, a.cap⟩)) ∧
    (∀ (reqs : List Nat) (a a' : Arena),
      a.off + (reqs.map roundUp64).sum < W64 →
      a.allocSeq reqs = some a' →
      a'.used = a.used + (reqs.map roundUp64).sum) :=
  ⟨allocate_spec, fun reqs a a' h hrun => (allocSeq_used reqs a a' h hrun).1⟩

/-- C8, witness for the amended claim: a concrete allocation (offset `0`,
capacity `256`, request `100`) succeeds, rounds to `128`, and a subsequent
sequence `[100, 60]` leaves `used() = 128 + 64 = 192`. -/
theorem arena_allocate_amended_witness :
    (Arena.allocate ⟨0, 256⟩ 100).1 = Except.ok 0 ∧
    (Arena.allocate ⟨0, 256⟩ 100).2 = ⟨128, 256⟩ ∧
    Arena.used ⟨192, 256⟩ =
      Arena.used ⟨0, 256⟩ + ([100, 60].map roundUp64).sum := by
  have h1 := (arena_allocate_amended.1 ⟨0, 256⟩ 100 (by norm_num [roundUp64, W64])).2.2
    (by norm_num [roundUp64])
  refine ⟨h1.1, ?_, ?_⟩
  · rw [h1.2]
    norm_num [roundUp64]
  · exact arena_allocate_amended.2 [100, 60] ⟨0, 256⟩ ⟨192, 256⟩
      (by norm_num [roundUp64, W64]) (by rfl)

/-- C10: arena allocation failure is atomic — when `allocate` throws, the
arena state (hence `used()`) is unchanged, and on any reachable state
(`offset ≤ capacity < 2^64`) a subsequent small enough request (witness:
zero bytes, rounded to zero) still succeeds. -/
theorem arena_allocate_fail_atomic (a : Arena) (bytes : Nat) (a' : Arena)
    (e : Unit) (hcap : a.cap < W64) (hoff : a.off ≤ a.cap)
    (hfail : a.allocate bytes = (Except.error e, a')) :
    a' = a ∧ a'.used = a.used ∧
    ∃ b, (a'.allocate b).1 = Except.ok a'.off := by
  have ha' : a' = a := by
    unfold Arena.allocate at hfail
    by_cases hc : (a.off + alignUp bytes) % W64 > a.cap
    · simp [hc] at hfail
      exact hfail.symm
    · simp [hc] at hfail
  refine ⟨ha', by rw [ha'], ?_⟩
  rw [ha']
  refine ⟨0, ?_⟩
  have hz : alignUp 0 = 0 := by decide
  unfold Arena.allocate
  rw [hz]
  have hmod : (a.off + 0) % W64 = a.off := by
    rw [Nat.add_zero]
    exact Nat.mod_eq_of_lt (by omega)
  rw [hmod]
  have : ¬ a.off > a.cap := by omega
  simp [this]

/-- C10, witness: the concrete failing allocation (offset `0`, capacity `10`,
request `64`) leaves the state unchanged and a following request succeeds. -/
theorem arena_allocate_fail_atomic_witness :
    Arena.mk 0 10 = ⟨0, 10⟩ ∧ Arena.used ⟨0, 10⟩ = Arena.used ⟨0, 10⟩ ∧
    ∃ b, ((Arena.mk 0 10).allocate b).1 = Except.ok (Arena.mk 0 10).off := by
  have h := arena_allocate_fail_atomic ⟨0, 10⟩ 64 ⟨0, 10⟩ ()
    (by norm_num [W64]) (by norm_num) (by rfl)
  exact ⟨h.1, h.2.1 ▸ rfl, h.2.2⟩

/-! ### Induction principle for nodes -/

/-- Induction on nodes with the hypothesis available for every child. -/
theorem node_mem_induction {P : Node → Prop}
    (hleaf : ∀ kvs gk, P (.leaf kvs gk))
    (hin : ∀ ks cs gk, (∀ c ∈ cs, P c) → P (.internal ks cs gk)) :
    ∀ t, P t
  | .leaf kvs gk => hleaf kvs gk
  | .internal ks cs gk =>
    hin ks cs gk (fun c hc =>
      have := List.sizeOf_lt_of_mem hc
      node_mem_induction hleaf hin c)
termination_by t => sizeOf t
decreasing_by
  simp only [Node.internal.sizeOf_spec]
  omega

/-! ### Balance (claim C5) -/

/-- `allDepthAll` is the pointwise conjunction of `allDepth`. -/
theorem allDepthAll_forall (d : Nat) :
    ∀ cs : List Node, allDepthAll cs d = true ↔
      ∀ c ∈ cs, allDepth c d = true := by
  intro cs
  induction cs with
  | nil => simp [allDepthAll]
  | cons c cs ih =>
    simp only [allDepthAll, Bool.and_eq_true, ih, List.mem_cons]
    constructor
    · rintro ⟨h1, h2⟩ x (rfl | hx)
      · exact h1
      · exact h2 x hx
    · intro h
      exact ⟨h c (Or.inl rfl), fun x hx => h x (Or.inr hx)⟩

/-- An element of `insertAt i x l` is `x` or an element of `l`. -/
theorem mem_insertAt {x y : α} {i : Nat} {l : List α}
    (h : y ∈ insertAt i x l) : y = x ∨ y ∈ l := by
  simp only [insertAt, List.mem_append, List.mem_cons] at h
  rcases h with h | h | h
  · exact Or.inr (List.take_subset i l h)
  · exact Or.inl h
  · exact Or.inr (List.drop_subset i l h)

/-- Characterization of `insertRecAt`: a successful run recurses into one
member `c` of the list, returns its split information, and every node of the
updated list is an old member or the updated `c`. -/
theorem insertRecAt_spec (M : Nat) (key value : Int) :
    ∀ (i : Nat) (cs : List Node) (cs₁ : List Node)
      (sp : Option (Int × Node)),
      insertRecAt M key value i cs = some (cs₁, sp) →
      ∃ c ∈ cs, (insertRec M key value c).2 = sp ∧
        ∀ x ∈ cs₁, x ∈ cs ∨ x = (insertRec M key value c).1 := by
  intro i
  induction i with
  | zero =>
    intro cs cs₁ sp h
    cases cs with
    | nil => simp [insertRecAt] at h
    | cons c cs =>
      simp only [insertRecAt, Option.some.injEq, Prod.mk.injEq] at h
      refine ⟨c, List.mem_cons_self c cs, ?_, ?_⟩
      · rw [← h.2]
      · intro x hx
        rw [← h.1] at hx
        rcases List.mem_cons.mp hx with rfl | hx
        · exact Or.inr rfl
        · exact Or.inl (List.mem_cons_of_mem c hx)
  | succ i ih =>
    intro cs cs₁ sp h
    cases cs with
    | nil => simp [insertRecAt] at h
    | cons c cs =>
      simp only [insertRecAt] at h
      rcases hm : insertRecAt M key value i cs with _ | ⟨cs', sp'⟩
      · rw [hm] at h
        simp at h
      · rw [hm] at h
        simp only [Option.some.injEq, Prod.mk.injEq] at h
        obtain ⟨c₀, hc₀, hsp, hmem⟩ := ih cs cs' sp' hm
        refine ⟨c₀, List.mem_cons_of_mem c hc₀, by rw [hsp, h.2], ?_⟩
        intro x hx
        rw [← h.1] at hx
        rcases List.mem_cons.mp hx with rfl | hx
        · exact Or.inl (List.mem_cons_self x cs)
        · rcases hmem x hx with h' | h'
          · exact Or.inl (List.mem_cons_of_mem c h')
          · exact Or.inr h'

/-- `insert_recursive` preserves balance: if every leaf of `t` is at depth
`d`, the same holds of the updated node and of the split sibling (if any). -/
theorem insertRec_balance (M : Nat) (key value : Int) :
    ∀ t, ∀ d, allDepth t d = true →
      allDepth (insertRec M key value t).1 d = true ∧
      ∀ med sib, (insertRec M key value t).2 = some (med, sib) →
        allDepth sib d = true := by
  apply node_mem_induction
  · intro kvs gk d hd
    have hd0 : d = 0 := by
      simpa [allDepth] using hd
    subst hd0
    simp only [insertRec]
    split
    · exact ⟨by simp [allDepth], by intro med sib h; simp at h⟩
    · split
      · refine ⟨by simp [splitLeaf, allDepth], ?_⟩
        intro med sib h
        simp only [splitLeaf, Option.some.injEq, Prod.mk.injEq] at h
        rw [← h.2]
        simp [allDepth]
      · exact ⟨by simp [allDepth], by intro med sib h; simp at h⟩
  · intro ks cs gk IH d hd
    cases d with
    | zero => simp [allDepth] at hd
    | succ d =>
      have hcs : ∀ c ∈ cs, allDepth c d = true :=
        (allDepthAll_forall d cs).mp (by simpa [allDepth] using hd)
      rcases hm : insertRecAt M key value (insChildIdx key ks) cs with
        _ | ⟨cs₁, sp⟩
      · simp only [insertRec, hm]
        exact ⟨hd, by intro med sib h; simp at h⟩
      · obtain ⟨c, hc, hsp, hmem⟩ :=
          insertRecAt_spec M key value (insChildIdx key ks) cs cs₁ sp hm
        have hrec := IH c hc d (hcs c hc)
        have hcs₁ : ∀ x ∈ cs₁, allDepth x d = true := by
          intro x hx
          rcases hmem x hx with h' | h'
          · exact hcs x h'
          · rw [h']
            exact hrec.1
        cases sp with
        | none =>
          simp only [insertRec, hm]
          refine ⟨?_, by intro med sib h; simp at h⟩
          simp only [allDepth, allDepthAll_forall]
          exact hcs₁
        | some ms =>
          obtain ⟨med, sib⟩ := ms
          have hsib : allDepth sib d = true := hrec.2 med sib hsp
          have hcs' : ∀ x ∈ insertAt (insChildIdx key ks + 1) sib cs₁,
              allDepth x d = true := by
            intro x hx
            rcases mem_insertAt hx with rfl | hx
            · exact hsib
            · exact hcs₁ x hx
          simp only [insertRec, hm]
          split
          · constructor
            · simp only [splitInternal, allDepth, allDepthAll_forall]
              intro x hx
              exact hcs' x (List.take_subset _ _ hx)
            · intro med' sib' h
              simp only [splitInternal, Option.some.injEq, Prod.mk.injEq] at h
              rw [← h.2]
              simp only [allDepth, allDepthAll_forall]
              intro x hx
              exact hcs' x (List.drop_subset _ _ hx)
          · refine ⟨?_, by intro med' sib' h; simp at h⟩
            simp only [allDepth, allDepthAll_forall]
            exact hcs'

/-- `insert` preserves the existence of a uniform leaf depth. -/
theorem insert_balanced (M : Nat) (key value : Int) (t : Node) (d : Nat)
    (hd : allDepth t d = true) :
    ∃ d2, allDepth (insert M key value t) d2 = true := by
  unfold insert
  rcases hm : insertRec M key value t with ⟨t', sp⟩
  have hb := insertRec_balance M key value t d hd
  rw [hm] at hb
  cases sp with
  | none => exact ⟨d, hb.1⟩
  | some ms =>
    obtain ⟨med, sib⟩ := ms
    refine ⟨d + 1, ?_⟩
    simp only [allDepth, allDepthAll, Bool.and_eq_true]
    exact ⟨hb.1, hb.2 med sib rfl, trivial⟩

/-- C5: after any sequence of inserts starting from the empty tree, the tree
is balanced — every root-to-leaf path has the same length. -/
theorem insert_sequences_balanced (M : Nat) (ops : List (Int × Int)) :
    ∃ d, allDepth (insertList M ops emptyTree) d = true := by
  suffices h : ∀ (t : Node) (d : Nat), allDepth t d = true →
      ∃ d2, allDepth (insertList M ops t) d2 = true by
    exact h emptyTree 0 (by simp [emptyTree, allDepth])
  induction ops with
  | nil =>
    intro t d hd
    exact ⟨d, hd⟩
  | cons p ops ih =>
    intro t d hd
    obtain ⟨d2, hd2⟩ := insert_balanced M p.1 p.2 t d hd
    exact ih (insert M p.1 p.2 t) d2 hd2

/-! ### SIMD scan correctness -/

/-- Within the valid range, `keyAt` reads the key array. -/
theorem keyAt_eq_getD {ks : List Int} {gk : Nat → Int} {j : Nat}
    (h : j < ks.length) : keyAt ks gk j = ks.getD j 0 := by
  simp [keyAt, h, List.getD_eq_getElem, List.get_eq_getElem]

/-- Reading the mapped key list of a leaf. -/
theorem map_fst_getD {kvs : List (Int × Int)} {j : Nat}
    (h : j < kvs.length) :
    (kvs.map Prod.fst).getD j 0 = (kvs.getD j (0, 0)).1 := by
  rw [List.getD_eq_getElem _ _ (by simpa using h), List.getD_eq_getElem _ _ h]
  simp

/-- The SIMD descent loop computes the same child index as the linear scan:
the first index whose key exceeds the target, regardless of the contents of
the indeterminate tail lanes. -/
theorem simdChildLoop_correct (key : Int) (ks : List Int) (gk : Nat → Int) :
    ∀ (fuel i : Nat), ks.length ≤ i + 8 * fuel →
      (∀ j, j < i → j < ks.length → ¬ key < ks.getD j 0) →
      simdChildLoop key ks.length (keyAt ks gk) fuel i = linChildIdx key ks := by
  intro fuel
  induction fuel with
  | zero =>
    intro i hfi hinv
    simp only [simdChildLoop, linChildIdx]
    symm
    apply List.findIdx_eq_length_of_false
    intro x hx
    obtain ⟨j, hj, rfl⟩ := List.mem_iff_getElem.mp hx
    have := hinv j (by omega) hj
    rw [List.getD_eq_getElem _ _ hj] at this
    simpa using this
  | succ fuel ih =>
    intro i hfi hinv
    by_cases hi : i < ks.length
    · rcases hfb : (List.range 8).findIdx?
          (fun b => decide (key < keyAt ks gk (i + b))) with _ | bp
      · have hnone := List.findIdx?_eq_none_iff.mp hfb
        have hinv' : ∀ j, j < i + 8 → j < ks.length → ¬ key < ks.getD j 0 := by
          intro j hj hjn
          by_cases hji : j < i
          · exact hinv j hji hjn
          · have hb : j - i < 8 := by omega
            have := hnone (j - i) (List.mem_range.mpr hb)
            have hij : i + (j - i) = j := by omega
            rw [hij, keyAt_eq_getD hjn] at this
            simpa using this
        rw [simdChildLoop, if_pos hi, hfb]
        exact ih (i + 8) (by omega) hinv'
      · obtain ⟨hbp8, hbip, hbmin⟩ := List.findIdx?_eq_some_iff_getElem.mp hfb
        rw [List.getElem_range] at hbip
        have hbmin' : ∀ b, b < bp → ¬ key < keyAt ks gk (i + b) := by
          intro b hb
          have := hbmin b hb
          rw [List.getElem_range] at this
          simpa using this
        rw [List.length_range] at hbp8
        by_cases hin : i + bp < ks.length
        · rw [simdChildLoop, if_pos hi, hfb]
          simp only [if_pos hin]
          symm
          rw [linChildIdx, List.findIdx_eq hin]
          constructor
          · rw [keyAt_eq_getD hin, List.getD_eq_getElem _ _ hin] at hbip
            simpa using hbip
          · intro j hj
            have hjn : j < ks.length := by omega
            rw [← List.getD_eq_getElem _ _ hjn]
            by_cases hji : j < i
            · simpa using hinv j hji hjn
            · have := hbmin' (j - i) (by omega)
              have hij : i + (j - i) = j := by omega
              rw [hij, keyAt_eq_getD hjn] at this
              simpa using this
        · have hinv' : ∀ j, j < i + 8 → j < ks.length → ¬ key < ks.getD j 0 := by
            intro j hj hjn
            by_cases hji : j < i
            · exact hinv j hji hjn
            · have := hbmin' (j - i) (by omega)
              have hij : i + (j - i) = j := by omega
              rw [hij, keyAt_eq_getD hjn] at this
              simpa using this
          rw [simdChildLoop, if_pos hi, hfb]
          simp only [if_neg hin]
          exact ih (i + 8) (by omega) hinv'
    · rw [simdChildLoop, if_neg hi]
      symm
      apply List.findIdx_eq_length_of_false
      intro x hx
      obtain ⟨j, hj, rfl⟩ := List.mem_iff_getElem.mp hx
      have := hinv j (by omega) hj
      rw [List.getD_eq_getElem _ _ hj] at this
      simpa using this

/-- The SIMD leaf scan computes the same result as the linear leaf scan:
the value at the first valid slot whose key equals the target, regardless of
the indeterminate tail lanes. -/
theorem simdLeafLoop_correct (key : Int) (kvs : List (Int × Int))
    (gk : Nat → Int) :
    ∀ (fuel i : Nat), kvs.length ≤ i + 8 * fuel →
      (∀ j, j < i → j < kvs.length → ¬ (kvs.getD j (0, 0)).1 = key) →
      simdLeafLoop key kvs gk fuel i = linLeafFind key kvs := by
  have habsent : ∀ (hall : ∀ j, j < kvs.length → ¬ (kvs.getD j (0, 0)).1 = key),
      linLeafFind key kvs = none := by
    intro hall
    have hlen : kvs.findIdx (fun p => decide (p.1 = key)) = kvs.length := by
      apply List.findIdx_eq_length_of_false
      intro x hx
      obtain ⟨j, hj, rfl⟩ := List.mem_iff_getElem.mp hx
      have := hall j hj
      rw [List.getD_eq_getElem _ _ hj] at this
      simpa using this
    rw [linLeafFind]
    simp [hlen]
  intro fuel
  induction fuel with
  | zero =>
    intro i hfi hinv
    rw [simdLeafLoop]
    symm
    exact habsent (fun j hj => hinv j (by omega) hj)
  | succ fuel ih =>
    intro i hfi hinv
    by_cases hi : i < kvs.length
    · rcases hfb : (List.range 8).findIdx?
          (fun b => decide (keyAt (kvs.map Prod.fst) gk (i + b) = key)) with
        _ | bp
      · have hnone := List.findIdx?_eq_none_iff.mp hfb
        have hinv' : ∀ j, j < i + 8 → j < kvs.length →
            ¬ (kvs.getD j (0, 0)).1 = key := by
          intro j hj hjn
          by_cases hji : j < i
          · exact hinv j hji hjn
          · have hb : j - i < 8 := by omega
            have := hnone (j - i) (List.mem_range.mpr hb)
            have hij : i + (j - i) = j := by omega
            have hjm : j < (kvs.map Prod.fst).length := by simpa using hjn
            rw [hij, keyAt_eq_getD hjm, map_fst_getD hjn] at this
            simpa using this
        rw [simdLeafLoop, if_pos hi, hfb]
        exact ih (i + 8) (by omega) hinv'
      · obtain ⟨hbp8, hbip, hbmin⟩ := List.findIdx?_eq_some_iff_getElem.mp hfb
        rw [List.getElem_range] at hbip
        have hbmin' : ∀ b, b < bp →
            ¬ keyAt (kvs.map Prod.fst) gk (i + b) = key := by
          intro b hb
          have := hbmin b hb
          rw [List.getElem_range] at this
          simpa using this
        rw [List.length_range] at hbp8
        by_cases hin : i + bp < kvs.length
        · rw [simdLeafLoop, if_pos hi, hfb]
          simp only [if_pos hin]
          have hmfst : i + bp < (kvs.map Prod.fst).length := by simpa using hin
          have hkey : (kvs.getD (i + bp) (0, 0)).1 = key := by
            rw [keyAt_eq_getD hmfst, map_fst_getD hin] at hbip
            simpa using hbip
          have hidx : kvs.findIdx (fun p => decide (p.1 = key)) = i + bp := by
            rw [List.findIdx_eq hin]
            constructor
            · rw [← List.getD_eq_getElem _ (0, 0) hin]
              simpa using hkey
            · intro j hj
              have hjn : j < kvs.length := by omega
              rw [← List.getD_eq_getElem _ (0, 0) hjn]
              by_cases hji : j < i
              · simpa using hinv j hji hjn
              · have := hbmin' (j - i) (by omega)
                have hij : i + (j - i) = j := by omega
                have hjm : j < (kvs.map Prod.fst).length := by simpa using hjn
                rw [hij, keyAt_eq_getD hjm, map_fst_getD hjn] at this
                simpa using this
          rw [linLeafFind]
          simp only [hidx]
          rw [dif_pos hin]
          rw [List.getD_eq_getElem _ (0, 0) hin, List.get_eq_getElem]
        · have hinv' : ∀ j, j < i + 8 → j < kvs.length →
              ¬ (kvs.getD j (0, 0)).1 = key := by
            intro j hj hjn
            by_cases hji : j < i
            · exact hinv j hji hjn
            · have := hbmin' (j - i) (by omega)
              have hij : i + (j - i) = j := by omega
              have hjm : j < (kvs.map Prod.fst).length := by simpa using hjn
              rw [hij, keyAt_eq_getD hjm, map_fst_getD hjn] at this
              simpa using this
          rw [simdLeafLoop, if_pos hi, hfb]
          simp only [if_neg hin]
          exact ih (i + 8) (by omega) hinv'
    · rw [simdLeafLoop, if_neg hi]
      symm
      exact habsent (fun j hj => hinv j (by omega) hj)

/-- The list walkers of the SIMD and linear finds agree when the recursive
finds agree on every member. -/
theorem findSIMDAt_eq_findLinearAt (key : Int) :
    ∀ (cs : List Node) (i : Nat),
      (∀ c ∈ cs, findSIMD key c = findLinear key c) →
      findSIMDAt key i cs = findLinearAt key i cs := by
  intro cs
  induction cs with
  | nil => intro i _; cases i <;> rfl
  | cons c cs ih =>
    intro i hp
    cases i with
    | zero =>
      simp only [findSIMDAt, findLinearAt]
      exact hp c (List.mem_cons_self c cs)
    | succ i =>
      simp only [findSIMDAt, findLinearAt]
      exact ih i (fun x hx => hp x (List.mem_cons_of_mem c hx))

/-- `findSIMD` computes exactly `findLinear`, on EVERY tree and for every
content of the indeterminate tail lanes: the `found_idx < num_keys` guards
make the chunked scans insensitive to the garbage lanes. -/
theorem findSIMD_eq_findLinear (key : Int) :
    ∀ t, findSIMD key t = findLinear key t := by
  apply node_mem_induction
  · intro kvs gk
    rw [findSIMD, findLinear]
    exact simdLeafLoop_correct key kvs gk kvs.length 0 (by omega)
      (by intro j hj; omega)
  · intro ks cs gk IH
    rw [findSIMD, findLinear]
    rw [simdChildLoop_correct key ks gk ks.length 0 (by omega)
      (by intro j hj; omega)]
    exact findSIMDAt_eq_findLinearAt key cs _ IH

/-! ### Binary search correctness -/

/-- `sortedLtB` is exactly chained strict ascent. -/
theorem sortedLtB_chain : ∀ ks : List Int,
    sortedLtB ks = true ↔ List.Chain' (· < ·) ks := by
  intro ks
  induction ks with
  | nil => simp [sortedLtB]
  | cons a l ih =>
    cases l with
    | nil => simp [sortedLtB]
    | cons b l2 =>
      rw [sortedLtB, List.chain'_cons, Bool.and_eq_true, decide_eq_true_eq, ih]

/-- Strictly sorted key arrays are strictly monotone under indexing. -/
theorem sortedLtB_getD_lt {ks : List Int} (hs : sortedLtB ks = true)
    {j1 j2 : Nat} (h12 : j1 < j2) (h2 : j2 < ks.length) :
    ks.getD j1 0 < ks.getD j2 0 := by
  have hp : List.Pairwise (· < ·) ks :=
    List.chain'_iff_pairwise.mp ((sortedLtB_chain ks).mp hs)
  have h1 : j1 < ks.length := by omega
  rw [List.getD_eq_getElem _ _ h1, List.getD_eq_getElem _ _ h2]
  exact List.pairwise_iff_getElem.mp hp j1 j2 h1 h2 h12

/-- The two exit cases of the binary-search loop, as they appear at the
`lo > hi` exit and in both post-processing consumers: either the predicate
held on the whole array (the loop never moved `hi`, and `i` still equals the
initial `num_keys - 1`), or `i` is the first index where it fails. -/
def bsOut (p : Int → Bool) (ks : List Int) (r : Int × Int) : Prop :=
  (ks.findIdx (fun k => !p k) = ks.length ∧ r.1 = r.2 ∧
      r.1 = (ks.length : Int) - 1) ∨
    (ks.findIdx (fun k => !p k) < ks.length ∧ r.1 ≠ r.2 ∧
      r.1 = ((ks.findIdx (fun k => !p k) : Nat) : Int))

/-- Exit analysis of the binary-search loop. -/
theorem bsExit (p : Int → Bool) (ks : List Int) (lo hi i : Int)
    (hlo0 : 0 ≤ lo) (hloeq : lo = hi + 1)
    (hA : ∀ j : Nat, (j : Int) < lo → j < ks.length → p (ks.getD j 0) = true)
    (hB : ∀ j : Nat, hi < (j : Int) → j < ks.length → p (ks.getD j 0) = false)
    (hC : (hi + 1 = (ks.length : Int) ∧ i = (ks.length : Int) - 1) ∨
      (i = hi + 1 ∧ i < (ks.length : Int))) :
    bsOut p ks (i, hi) := by
  rcases hC with ⟨h1, h2⟩ | ⟨h1, h2⟩
  · left
    refine ⟨?_, by omega, by simpa using h2⟩
    apply List.findIdx_eq_length_of_false
    intro x hx
    obtain ⟨j, hj, rfl⟩ := List.mem_iff_getElem.mp hx
    have := hA j (by omega) hj
    rw [List.getD_eq_getElem _ _ hj] at this
    simp [this]
  · right
    have hi0 : 0 ≤ i := by omega
    have hin : i.toNat < ks.length := by omega
    have hF : ks.findIdx (fun k => !p k) = i.toNat := by
      rw [List.findIdx_eq hin]
      constructor
      · have := hB i.toNat (by omega) hin
        rw [List.getD_eq_getElem _ _ hin] at this
        simp [this]
      · intro j hj
        have hjn : j < ks.length := by omega
        have := hA j (by omega) hjn
        rw [List.getD_eq_getElem _ _ hjn] at this
        simp [this]
    rw [hF]
    exact ⟨by omega, by simp only []; omega, by simp only []; omega⟩

/-- Main correctness of the binary-search loop for a monotone predicate
(`p` true on a prefix): starting from any state satisfying the loop
invariant, it lands in one of the two `bsOut` cases. -/
theorem bsLoop_correct (p : Int → Bool) (ks : List Int)
    (hmono : ∀ j1 j2 : Nat, j1 ≤ j2 → j2 < ks.length →
      p (ks.getD j2 0) = true → p (ks.getD j1 0) = true) :
    ∀ (fuel : Nat) (lo hi i : Int),
      (hi + 1 - lo).toNat ≤ fuel →
      0 ≤ lo → lo ≤ hi + 1 → hi ≤ (ks.length : Int) - 1 →
      (∀ j : Nat, (j : Int) < lo → j < ks.length → p (ks.getD j 0) = true) →
      (∀ j : Nat, hi < (j : Int) → j < ks.length → p (ks.getD j 0) = false) →
      ((hi + 1 = (ks.length : Int) ∧ i = (ks.length : Int) - 1) ∨
        (i = hi + 1 ∧ i < (ks.length : Int))) →
      bsOut p ks (bsLoop p ks fuel lo hi i) := by
  intro fuel
  induction fuel with
  | zero =>
    intro lo hi i hfuel hlo0 hlo hhi hA hB hC
    rw [bsLoop]
    exact bsExit p ks lo hi i hlo0 (by omega) hA hB hC
  | succ fuel ih =>
    intro lo hi i hfuel hlo0 hlo hhi hA hB hC
    rw [bsLoop]
    by_cases hcmp : lo ≤ hi
    · rw [if_pos hcmp]
      have hmid1 : lo ≤ lo + (hi - lo) / 2 := by omega
      have hmid2 : lo + (hi - lo) / 2 ≤ hi := by omega
      by_cases hp : p (ks.getD (lo + (hi - lo) / 2).toNat 0)
      · rw [if_pos hp]
        apply ih _ _ _ (by omega) (by omega) (by omega) hhi _ hB hC
        intro j hj hjn
        have hjm : j ≤ (lo + (hi - lo) / 2).toNat := by omega
        exact hmono j ((lo + (hi - lo) / 2).toNat) hjm (by omega) hp
      · rw [if_neg hp]
        apply ih _ _ _ (by omega) (by omega) (by omega) (by omega) hA _ _
        · intro j hj hjn
          rcases Bool.eq_false_or_eq_true (p (ks.getD j 0)) with h | h
          · exact absurd (hmono ((lo + (hi - lo) / 2).toNat) j (by omega) hjn h)
              (by simpa using hp)
          · exact h
        · right
          constructor
          · omega
          · omega
    · rw [if_neg hcmp]
      exact bsExit p ks lo hi i hlo0 (by omega) hA hB hC

/-- The internal-node child index of `findBinary` equals the linear one on a
non-empty strictly sorted key array. -/
theorem binChildIdx_eq (key : Int) (ks : List Int)
    (hs : sortedLtB ks = true) (hn : 1 ≤ ks.length) :
    binChildIdx key ks = linChildIdx key ks := by
  have hmono : ∀ j1 j2 : Nat, j1 ≤ j2 → j2 < ks.length →
      decide (ks.getD j2 0 ≤ key) = true →
      decide (ks.getD j1 0 ≤ key) = true := by
    intro j1 j2 h12 h2 h
    rcases Nat.eq_or_lt_of_le h12 with rfl | hlt
    · exact h
    · have := sortedLtB_getD_lt hs hlt h2
      simp only [decide_eq_true_eq] at h ⊢
      omega
  have hout := bsLoop_correct (fun k => decide (k ≤ key)) ks hmono ks.length
    0 ((ks.length : Int) - 1) ((ks.length : Int) - 1)
    (by omega) (by omega) (by omega) (by omega)
    (by intro j hj hjn; omega)
    (by intro j hj hjn; omega)
    (Or.inl ⟨by omega, rfl⟩)
  have hFeq : (ks.findIdx fun k => !decide (k ≤ key)) = linChildIdx key ks := by
    rw [linChildIdx]
    congr 1
    funext k
    rcases Int.lt_or_le key k with h | h
    · have h2 : ¬ k ≤ key := by omega
      simp [h, h2]
    · have h2 : ¬ key < k := by omega
      simp [h, h2]
  rcases hout with ⟨hF, h12, h1⟩ | ⟨hF, h12, h1⟩
  · have hF2 : (ks.findIdx fun k => !decide (k ≤ key)) = ks.length := hF
    rw [binChildIdx]
    simp only [if_pos h12]
    have hlast : decide (ks.getD (ks.length - 1) 0 ≤ key) = true := by
      have hfi : ¬ (ks.findIdx fun k => !decide (k ≤ key)) < ks.length := by
        omega
      rcases Bool.eq_false_or_eq_true (decide (ks.getD (ks.length - 1) 0 ≤ key))
        with h | h
      · exact h
      · exfalso
        apply hfi
        apply List.findIdx_lt_length_of_exists
        refine ⟨ks.getD (ks.length - 1) 0, ?_, ?_⟩
        · rw [List.getD_eq_getElem _ _ (by omega)]
          exact List.getElem_mem _
        · show (!decide (ks.getD (ks.length - 1) 0 ≤ key)) = true
          rw [h]
          rfl
    have htn : (bsLoop (fun k => decide (k ≤ key)) ks ks.length 0
        ((ks.length : Int) - 1) ((ks.length : Int) - 1)).1.toNat =
        ks.length - 1 := by omega
    rw [htn]
    have : ¬ key < ks.getD (ks.length - 1) 0 := by
      simp only [decide_eq_true_eq] at hlast
      omega
    rw [if_neg this, ← hFeq]
    omega
  · have hF2 : (ks.findIdx fun k => !decide (k ≤ key)) < ks.length := hF
    have h1b : (bsLoop (fun k => decide (k ≤ key)) ks ks.length 0
        ((ks.length : Int) - 1) ((ks.length : Int) - 1)).1 =
        ((ks.findIdx fun k => !decide (k ≤ key) : Nat) : Int) := h1
    rw [binChildIdx]
    simp only [if_neg h12]
    rw [← hFeq]
    omega

/-- The leaf search of `findBinary` equals the linear one on a strictly
sorted leaf. -/
theorem binLeafFind_eq (key : Int) (kvs : List (Int × Int))
    (hs : sortedLtB (kvs.map Prod.fst) = true) :
    binLeafFind key kvs = linLeafFind key kvs := by
  set ksl := kvs.map Prod.fst with hksl
  have hlen : ksl.length = kvs.length := by simp [hksl]
  have hmono : ∀ j1 j2 : Nat, j1 ≤ j2 → j2 < ksl.length →
      decide (ksl.getD j2 0 < key) = true →
      decide (ksl.getD j1 0 < key) = true := by
    intro j1 j2 h12 h2 h
    rcases Nat.eq_or_lt_of_le h12 with rfl | hlt
    · exact h
    · have := sortedLtB_getD_lt hs hlt h2
      simp only [decide_eq_true_eq] at h ⊢
      omega
  have hout := bsLoop_correct (fun k => decide (k < key)) ksl hmono kvs.length
    0 ((kvs.length : Int) - 1) ((kvs.length : Int) - 1)
    (by omega) (by omega) (by omega) (by omega)
    (by intro j hj hjn; omega)
    (by intro j hj hjn; rw [hlen] at hjn; omega)
    (Or.inl ⟨by omega, by rw [hlen]⟩)
  have hFlt : ∀ j (hj : j < ksl.length), j < ksl.findIdx (fun k => !decide (k < key)) →
      ksl.getD j 0 < key := by
    intro j hj hjF
    have := List.not_of_lt_findIdx hjF
    rw [← List.getD_eq_getElem _ (0 : Int) hj] at this
    simpa using this
  rcases hout with ⟨hF, h12, h1⟩ | ⟨hF, h12, h1⟩
  · -- every key of the leaf is < key: both searches miss
    have hF2 : ksl.findIdx (fun k => !decide (k < key)) = ksl.length := hF
    rw [binLeafFind, linLeafFind]
    simp only [← hksl, hlen] at h12 h1 ⊢
    have habs : ∀ j, j < kvs.length → (kvs.getD j (0, 0)).1 < key := by
      intro j hj
      have hjk : j < ksl.length := by omega
      have := hFlt j hjk (by omega)
      rw [map_fst_getD hj] at this
      exact this
    have hidx : kvs.findIdx (fun p => decide (p.1 = key)) = kvs.length := by
      apply List.findIdx_eq_length_of_false
      intro x hx
      obtain ⟨j, hj, rfl⟩ := List.mem_iff_getElem.mp hx
      have := habs j hj
      rw [List.getD_eq_getElem _ _ hj] at this
      simp only [decide_eq_false_iff_not]
      omega
    rw [dif_neg (by omega)]
    rcases Nat.eq_zero_or_pos kvs.length with hz | hpos
    · rw [if_neg]
      simp only [not_and]
      intro h0
      omega
    · have hval : (kvs.getD (kvs.length - 1) (0, 0)).1 < key :=
        habs (kvs.length - 1) (by omega)
      rw [if_neg]
      simp only [not_and]
      intro h0 hlt
      have : (bsLoop (fun k => decide (k < key)) ksl kvs.length 0
          ((kvs.length : Int) - 1) ((kvs.length : Int) - 1)).1.toNat =
          kvs.length - 1 := by omega
      rw [this]
      omega
  · -- the loop found the first index with key ≤ ksl[i]
    have hF2 : ksl.findIdx (fun k => !decide (k < key)) < ksl.length := hF
    have h1b : (bsLoop (fun k => decide (k < key)) ksl kvs.length 0
        ((kvs.length : Int) - 1) ((kvs.length : Int) - 1)).1 =
        ((ksl.findIdx fun k => !decide (k < key) : Nat) : Int) := h1
    rw [binLeafFind, linLeafFind]
    simp only [← hksl, hlen] at h12 h1b ⊢
    set F := ksl.findIdx (fun k => !decide (k < key)) with hFdef
    have hFk : ¬ ksl.getD F 0 < key := by
      have := List.findIdx_getElem (w := hF2)
      rw [← List.getD_eq_getElem _ (0 : Int) hF2] at this
      simpa using this
    have hFn : F < kvs.length := by omega
    by_cases heq : (kvs.getD F (0, 0)).1 = key
    · -- hit: both return the value at F
      have hidx : kvs.findIdx (fun p => decide (p.1 = key)) = F := by
        rw [List.findIdx_eq hFn]
        constructor
        · have heq2 := heq
          rw [List.getD_eq_getElem _ (0, 0) hFn] at heq2
          simp [heq2]
        · intro j hj
          have hjn : j < kvs.length := by omega
          have := hFlt j (by omega) hj
          rw [map_fst_getD hjn] at this
          rw [← List.getD_eq_getElem _ (0, 0) hjn]
          simp only [decide_eq_false_iff_not]
          omega
      have htn : (bsLoop (fun k => decide (k < key)) ksl kvs.length 0
          ((kvs.length : Int) - 1) ((kvs.length : Int) - 1)).1.toNat = F := by
        omega
      have h0i : (0 : Int) ≤ (bsLoop (fun k => decide (k < key)) ksl kvs.length
          0 ((kvs.length : Int) - 1) ((kvs.length : Int) - 1)).1 := by
        omega
      have hlti : (bsLoop (fun k => decide (k < key)) ksl kvs.length 0
          ((kvs.length : Int) - 1) ((kvs.length : Int) - 1)).1 <
          (kvs.length : Int) := by
        omega
      rw [hidx, dif_pos hFn, htn, if_pos ⟨h0i, hlti, heq⟩]
      rw [List.getD_eq_getElem _ (0, 0) hFn, List.get_eq_getElem]
    · -- miss: the first key ≥ `key` is ≠ `key`, and nothing else can match
      have hFgt : key < ksl.getD F 0 := by
        rw [map_fst_getD hFn] at hFk ⊢
        omega
      have hidx : kvs.findIdx (fun p => decide (p.1 = key)) = kvs.length := by
        apply List.findIdx_eq_length_of_false
        intro x hx
        obtain ⟨j, hj, rfl⟩ := List.mem_iff_getElem.mp hx
        simp only [decide_eq_false_iff_not]
        rcases Nat.lt_or_ge j F with hjF | hjF
        · have := hFlt j (by omega) hjF
          rw [map_fst_getD hj, List.getD_eq_getElem _ _ hj] at this
          omega
        · rcases Nat.eq_or_lt_of_le hjF with rfl | hjF2
          · rw [← List.getD_eq_getElem _ (0, 0) hj]
            exact heq
          · have := sortedLtB_getD_lt hs hjF2 (by omega)
            rw [map_fst_getD hj, List.getD_eq_getElem _ _ hj] at this
            rw [map_fst_getD hFn] at hFgt
            omega
      rw [hidx, dif_neg (by omega), if_neg]
      simp only [not_and]
      intro h0 hltn
      have : (bsLoop (fun k => decide (k < key)) ksl kvs.length 0
          ((kvs.length : Int) - 1) ((kvs.length : Int) - 1)).1.toNat = F := by
        omega
      rw [this]
      rw [map_fst_getD hFn] at hFgt
      omega

/-- Membership version of `orderedAllB`. -/
theorem orderedAllB_mem : ∀ {cs : List Node} {c : Node},
    orderedAllB cs = true → c ∈ cs → orderedB c = true := by
  intro cs
  induction cs with
  | nil => intro c _ hc; simp at hc
  | cons d cs ih =>
    intro c hall hc
    rw [orderedAllB, Bool.and_eq_true] at hall
    rcases List.mem_cons.mp hc with rfl | hc
    · exact hall.1
    · exact ih hall.2 hc

/-- Membership version of `wfAllB`. -/
theorem wfAllB_mem : ∀ {M : Nat} {cs : List Node} {c : Node},
    wfAllB M cs = true → c ∈ cs → wfB M c = true := by
  intro M cs
  induction cs with
  | nil => intro c _ hc; simp at hc
  | cons d cs ih =>
    intro c hall hc
    rw [wfAllB, Bool.and_eq_true] at hall
    rcases List.mem_cons.mp hc with rfl | hc
    · exact hall.1
    · exact ih hall.2 hc

/-- The list walkers of the binary and linear finds agree when the recursive
finds agree on every member. -/
theorem findBinaryAt_eq_findLinearAt (key : Int) :
    ∀ (cs : List Node) (i : Nat),
      (∀ c ∈ cs, findBinary key c = findLinear key c) →
      findBinaryAt key i cs = findLinearAt key i cs := by
  intro cs
  induction cs with
  | nil => intro i _; cases i <;> rfl
  | cons c cs ih =>
    intro i hp
    cases i with
    | zero =>
      simp only [findBinaryAt, findLinearAt]
      exact hp c (List.mem_cons_self c cs)
    | succ i =>
      simp only [findBinaryAt, findLinearAt]
      exact ih i (fun x hx => hp x (List.mem_cons_of_mem c hx))

/-- On trees whose nodes are strictly sorted and structurally well formed,
`findBinary` computes exactly `findLinear`. -/
theorem findBinary_eq_findLinear (M : Nat) (key : Int) :
    ∀ t, orderedB t = true → wfB M t = true →
      findBinary key t = findLinear key t := by
  apply node_mem_induction
  · intro kvs gk hord _
    rw [findBinary, findLinear]
    exact binLeafFind_eq key kvs (by simpa [orderedB] using hord)
  · intro ks cs gk IH hord hwf
    rw [orderedB, Bool.and_eq_true] at hord
    rw [wfB, Bool.and_eq_true, Bool.and_eq_true, Bool.and_eq_true] at hwf
    have h1 : 1 ≤ ks.length := by
      have := hwf.1.1.1
      simpa using this
    rw [findBinary, findLinear, binChildIdx_eq key ks hord.1 h1]
    apply findBinaryAt_eq_findLinearAt
    intro c hc
    exact IH c hc (orderedAllB_mem hord.2 hc) (wfAllB_mem hwf.2 hc)

/-! ### The leaf reached by the SIMD descent -/

mutual
/-- The leaf that the descent phase of `findSIMD` reaches for `key`. -/
def reachLeafSIMD (key : Int) : Node → Node
  | .leaf kvs gk => .leaf kvs gk
  | .internal ks cs gk =>
    reachLeafSIMDAt key (simdChildLoop key ks.length (keyAt ks gk) ks.length 0)
      cs

/-- Continue the SIMD descent in `children[i]` (a dummy empty leaf when the
child slot is out of range, which never happens on a well-formed tree). -/
def reachLeafSIMDAt (key : Int) : Nat → List Node → Node
  | _, [] => .leaf [] (fun _ => 0)
  | 0, c :: _ => reachLeafSIMD key c
  | i + 1, _ :: cs => reachLeafSIMDAt key i cs
end

/-- A hit of the SIMD leaf scan comes from a valid slot: the returned value
sits in a slot `< num_keys` whose key equals the searched key. -/
theorem simdLeafLoop_hit (key : Int) (kvs : List (Int × Int))
    (gk : Nat → Int) :
    ∀ (fuel i : Nat) (v : Int),
      simdLeafLoop key kvs gk fuel i = some v → (key, v) ∈ kvs := by
  intro fuel
  induction fuel with
  | zero => intro i v h; rw [simdLeafLoop] at h; exact absurd h (by simp)
  | succ fuel ih =>
    intro i v h
    rw [simdLeafLoop] at h
    by_cases hi : i < kvs.length
    · rw [if_pos hi] at h
      rcases hfb : (List.range 8).findIdx?
          (fun b => decide (keyAt (kvs.map Prod.fst) gk (i + b) = key)) with
        _ | bp
      · rw [hfb] at h
        exact ih (i + 8) v h
      · rw [hfb] at h
        replace h : (if i + bp < kvs.length then
            some (kvs.getD (i + bp) (0, 0)).2
          else simdLeafLoop key kvs gk fuel (i + 8)) = some v := h
        by_cases hin : i + bp < kvs.length
        · rw [if_pos hin] at h
          obtain ⟨hbp8, hbip, _⟩ := List.findIdx?_eq_some_iff_getElem.mp hfb
          rw [List.getElem_range] at hbip
          have hmfst : i + bp < (kvs.map Prod.fst).length := by simpa using hin
          have hkey : (kvs.getD (i + bp) (0, 0)).1 = key := by
            rw [keyAt_eq_getD hmfst, map_fst_getD hin] at hbip
            simpa using hbip
          have hv : (kvs.getD (i + bp) (0, 0)).2 = v := by
            simpa using h
          have : kvs.getD (i + bp) (0, 0) = (key, v) := by
            rw [Prod.ext_iff]
            exact ⟨hkey, hv⟩
          rw [← this, List.getD_eq_getElem _ (0, 0) hin]
          exact List.getElem_mem _
        · rw [if_neg hin] at h
          exact ih (i + 8) v h
    · rw [if_neg hi] at h
      exact absurd h (by simp)

/-- Walker version of `findSIMD_hit`: a hit of `findSIMDAt` lies in the leaf
reached by `reachLeafSIMDAt`. -/
theorem findSIMDAt_hit (key : Int) :
    ∀ (cs : List Node) (i : Nat) (v : Int),
      (∀ c ∈ cs, ∀ w, findSIMD key c = some w →
        (key, w) ∈ entriesOf (reachLeafSIMD key c)) →
      findSIMDAt key i cs = some v →
      (key, v) ∈ entriesOf (reachLeafSIMDAt key i cs) := by
  intro cs
  induction cs with
  | nil => intro i v _ h; cases i <;> exact absurd h (by simp [findSIMDAt])
  | cons c cs ih =>
    intro i v hp h
    cases i with
    | zero =>
      rw [findSIMDAt] at h
      rw [reachLeafSIMDAt]
      exact hp c (List.mem_cons_self c cs) v h
    | succ i =>
      rw [findSIMDAt] at h
      rw [reachLeafSIMDAt]
      exact ih i v (fun x hx => hp x (List.mem_cons_of_mem c hx)) h

/-- Every hit of `findSIMD` comes from a valid slot of the reached leaf. -/
theorem findSIMD_hit (key : Int) :
    ∀ t, ∀ v, findSIMD key t = some v →
      (key, v) ∈ entriesOf (reachLeafSIMD key t) := by
  apply node_mem_induction
  · intro kvs gk v h
    rw [findSIMD] at h
    rw [reachLeafSIMD, entriesOf]
    exact simdLeafLoop_hit key kvs gk kvs.length 0 v h
  · intro ks cs gk IH v h
    rw [findSIMD] at h
    rw [reachLeafSIMD]
    exact findSIMDAt_hit key cs _ v (fun c hc => IH c hc) h

/-! ### Claim theorems: lookup equivalence and SIMD safety -/

/-- C3: on every valid tree (ordering, separator and balance invariants) and
every key, the three find variants return the same result — `find_simd`
agreeing on its supported key type (32-bit integers, the `Int` model here)
and being literally `findBinary` for other key types (`findSIMDFallback`).
The SIMD agreement moreover holds for every content of the indeterminate
tail lanes, which are part of the quantified tree. -/
theorem find_variants_agree (M : Nat) (t : Node) (hv : validB M t = true)
    (key : Int) :
    findLinear key t = findBinary key t ∧
    findSIMD key t = findBinary key t ∧
    findSIMDFallback key t = findBinary key t := by
  rw [validB, Bool.and_eq_true, Bool.and_eq_true, Bool.and_eq_true] at hv
  have hlb : findBinary key t = findLinear key t :=
    findBinary_eq_findLinear M key t hv.1.1.2 hv.1.1.1
  refine ⟨hlb.symm, ?_, rfl⟩
  rw [findSIMD_eq_findLinear key t, hlb]

/-- C3, witness: on the spec's scenario-1 tree (`M = 4`, root separator
`10`, leaves `[5,6]` and `[10,20]`), all three variants agree at key `6`. -/
theorem find_variants_agree_witness :
    validB 4 (insertList 4 [(10,1),(20,2),(5,3),(6,4)] emptyTree) = true ∧
    (findLinear 6 (insertList 4 [(10,1),(20,2),(5,3),(6,4)] emptyTree) =
        findBinary 6 (insertList 4 [(10,1),(20,2),(5,3),(6,4)] emptyTree) ∧
      findSIMD 6 (insertList 4 [(10,1),(20,2),(5,3),(6,4)] emptyTree) =
        findBinary 6 (insertList 4 [(10,1),(20,2),(5,3),(6,4)] emptyTree) ∧
      findSIMDFallback 6 (insertList 4 [(10,1),(20,2),(5,3),(6,4)] emptyTree) =
        findBinary 6 (insertList 4 [(10,1),(20,2),(5,3),(6,4)] emptyTree)) :=
  ⟨by decide,
    find_variants_agree 4 (insertList 4 [(10,1),(20,2),(5,3),(6,4)] emptyTree)
      (by decide) 6⟩

/-- C7: on a valid tree with 32-bit integer keys, a `true` result of
`find_simd` always comes from a slot strictly below `num_keys` of the leaf
reached by the SIMD descent, whose key actually equals the searched key —
the indeterminate tail lanes (quantified as part of the tree) can never
produce a false positive. -/
theorem simd_no_false_positive (M : Nat) (t : Node)
    (hv : validB M t = true) (key v : Int)
    (h : findSIMD key t = some v) :
    (key, v) ∈ entriesOf (reachLeafSIMD key t) :=
  findSIMD_hit key t v h

/-- C7, witness: on the scenario-1 tree, `find_simd` hits `(6, 4)` inside
the valid slots of the reached left leaf. -/
theorem simd_no_false_positive_witness :
    validB 4 (insertList 4 [(10,1),(20,2),(5,3),(6,4)] emptyTree) = true ∧
    findSIMD 6 (insertList 4 [(10,1),(20,2),(5,3),(6,4)] emptyTree) =
      some 4 ∧
    ((6 : Int), (4 : Int)) ∈ entriesOf (reachLeafSIMD 6
      (insertList 4 [(10,1),(20,2),(5,3),(6,4)] emptyTree)) :=
  ⟨by decide, by decide,
    simd_no_false_positive 4
      (insertList 4 [(10,1),(20,2),(5,3),(6,4)] emptyTree) (by decide) 6 4
      (by decide)⟩

/-! ### Remove matches the specification's algorithm (claim C9) -/

/-- Membership version of `sepAllB`. -/
theorem sepAllB_mem : ∀ {cs : List Node} {c : Node},
    sepAllB cs = true → c ∈ cs → sepB c = true := by
  intro cs
  induction cs with
  | nil => intro c _ hc; simp at hc
  | cons d cs ih =>
    intro c hall hc
    rw [sepAllB, Bool.and_eq_true] at hall
    rcases List.mem_cons.mp hc with rfl | hc
    · exact hall.1
    · exact ih hall.2 hc

/-- On well-formed trees the uniform leaf depth is the leftmost-path
height. -/
theorem allDepth_heightOf (M : Nat) :
    ∀ t, wfB M t = true → ∀ d, allDepth t d = true → heightOf t = d := by
  apply node_mem_induction
  · intro kvs gk _ d hd
    have : d = 0 := by simpa [allDepth] using hd
    simp [heightOf, this]
  · intro ks cs gk IH hwf d hd
    cases d with
    | zero => simp [allDepth] at hd
    | succ d =>
      rw [wfB, Bool.and_eq_true, Bool.and_eq_true, Bool.and_eq_true] at hwf
      have hlen : cs.length = ks.length + 1 := by
        have := hwf.1.2
        simpa using this
      cases cs with
      | nil => simp at hlen
      | cons c rest =>
        have hc : allDepth c d = true :=
          (allDepthAll_forall d (c :: rest)).mp (by simpa [allDepth] using hd)
            c (List.mem_cons_self c rest)
        have hwc : wfB M c = true :=
          wfAllB_mem hwf.2 (List.mem_cons_self c rest)
        rw [heightOf, heightHead, IH c (List.mem_cons_self c rest) hwc d hc]

/-- Children of a valid tree are valid. -/
theorem validB_child {M : Nat} {ks : List Int} {cs : List Node}
    {gk : Nat → Int} {c : Node}
    (hv : validB M (.internal ks cs gk) = true) (hc : c ∈ cs) :
    validB M c = true := by
  rw [validB, Bool.and_eq_true, Bool.and_eq_true, Bool.and_eq_true] at hv
  obtain ⟨⟨⟨hwf, hord⟩, hsep⟩, hbal⟩ := hv
  rw [wfB, Bool.and_eq_true, Bool.and_eq_true, Bool.and_eq_true] at hwf
  rw [orderedB, Bool.and_eq_true] at hord
  rw [sepB, Bool.and_eq_true, Bool.and_eq_true] at hsep
  have hwc : wfB M c = true := wfAllB_mem hwf.2 hc
  rw [validB, Bool.and_eq_true, Bool.and_eq_true, Bool.and_eq_true]
  refine ⟨⟨⟨hwc, orderedAllB_mem hord.2 hc⟩, sepAllB_mem hsep.2 hc⟩, ?_⟩
  have hd : allDepth (Node.internal ks cs gk) (heightHead cs + 1) = true := by
    have := allDepth_heightOf M (.internal ks cs gk)
      (by rw [wfB, Bool.and_eq_true, Bool.and_eq_true, Bool.and_eq_true]
          exact hwf)
    rw [heightOf] at this
    -- `hbal` states balance at the tree's own height
    simpa [heightOf] using hbal
  have hcd : allDepth c (heightHead cs) = true :=
    (allDepthAll_forall (heightHead cs) cs).mp
      (by simpa [allDepth] using hd) c hc
  have : heightOf c = heightHead cs := allDepth_heightOf M c hwc _ hcd
  rw [this]
  exact hcd

/-- `obsEqAllB` is reflexive given pointwise reflexivity. -/
theorem obsEqAllB_refl : ∀ cs : List Node,
    (∀ c ∈ cs, obsEqB c c = true) → obsEqAllB cs cs = true := by
  intro cs
  induction cs with
  | nil => intro _; rfl
  | cons c cs ih =>
    intro hp
    rw [obsEqAllB, Bool.and_eq_true]
    exact ⟨hp c (List.mem_cons_self c cs),
      ih (fun x hx => hp x (List.mem_cons_of_mem c hx))⟩

/-- Observational equality is reflexive. -/
theorem obsEqB_refl : ∀ t, obsEqB t t = true := by
  apply node_mem_induction
  · intro kvs gk
    simp [obsEqB]
  · intro ks cs gk IH
    rw [obsEqB, Bool.and_eq_true]
    exact ⟨by simp, obsEqAllB_refl cs IH⟩

/-- `eraseP` is exactly the C++ erase-at-first-match loop: remove the slot at
`findIdx` when a slot matches, do nothing otherwise. -/
theorem eraseP_model (p : α → Bool) : ∀ l : List α,
    l.eraseP p =
      if l.findIdx p < l.length then eraseAt (l.findIdx p) l else l := by
  intro l
  induction l with
  | nil => simp
  | cons a l ih =>
    rw [List.eraseP_cons, List.findIdx_cons]
    by_cases hpa : p a
    · simp [hpa, eraseAt]
    · simp only [hpa, cond_false]
      rw [ih]
      by_cases hlt : l.findIdx p < l.length
      · have hlt2 : l.findIdx p + 1 < (a :: l).length := by
          simp only [List.length_cons]
          omega
        rw [if_pos hlt, if_pos hlt2]
        simp [eraseAt, List.take_succ_cons, List.drop_succ_cons]
      · have hlt2 : ¬ l.findIdx p + 1 < (a :: l).length := by
          simp only [List.length_cons]
          omega
        rw [if_neg hlt, if_neg hlt2]

/-- Head decomposition of a strictly sorted list. -/
theorem sortedLtB_cons {a : Int} {l : List Int}
    (h : sortedLtB (a :: l) = true) :
    sortedLtB l = true ∧ ∀ x ∈ l, a < x := by
  have hp := List.chain'_iff_pairwise.mp ((sortedLtB_chain _).mp h)
  rw [List.pairwise_cons] at hp
  exact ⟨(sortedLtB_chain l).mpr (List.chain'_iff_pairwise.mpr hp.2), hp.1⟩

/-- On a strictly sorted separator array, "the child after the last
separator ≤ key" (the spec's descent rule, counted) is the first index whose
separator exceeds the key (the code's loop). -/
theorem specChildIdx_eq (key : Int) :
    ∀ ks : List Int, sortedLtB ks = true →
      specChildIdx key ks = linChildIdx key ks := by
  intro ks
  induction ks with
  | nil => intro _; rfl
  | cons a l ih =>
    intro hs
    obtain ⟨htl, hlt⟩ := sortedLtB_cons hs
    have ihl := ih htl
    rw [specChildIdx, linChildIdx] at ihl
    rw [specChildIdx, linChildIdx, List.findIdx_cons]
    by_cases hak : a ≤ key
    · rw [List.countP_cons_of_pos _ _ (by simpa using hak)]
      have e2 : (decide (key < a)) = false := by
        simp only [decide_eq_false_iff_not]
        omega
      rw [e2, cond_false]
      omega
    · rw [List.countP_cons_of_neg _ _ (by simpa using hak)]
      have e2 : (decide (key < a)) = true := by
        simp only [decide_eq_true_eq]
        omega
      rw [e2, cond_true]
      have hzero : l.countP (fun k => decide (k ≤ key)) = 0 := by
        apply List.countP_eq_zero.mpr
        intro x hx
        have := hlt x hx
        simp only [decide_eq_true_eq]
        omega
      omega

/-- Membership version of `hasKeyAnyB = false`. -/
theorem hasKeyAnyB_mem : ∀ {k : Int} {cs : List Node} {c : Node},
    hasKeyAnyB k cs = false → c ∈ cs → hasKeyB k c = false := by
  intro k cs
  induction cs with
  | nil => intro c _ hc; simp at hc
  | cons d cs ih =>
    intro c hall hc
    rw [hasKeyAnyB, Bool.or_eq_false_iff] at hall
    rcases List.mem_cons.mp hc with rfl | hc
    · exact hall.1
    · exact ih hall.2 hc

/-- The remove walkers are observationally equal when the recursive removes
are, member by member. -/
theorem removeRecAt_obsEq (key : Int) :
    ∀ (cs : List Node) (i : Nat),
      (∀ c ∈ cs, obsEqB (removeRec key c) (removeSpec key c) = true) →
      obsEqAllB (removeRecAt key i cs) (removeSpecAt key i cs) = true := by
  intro cs
  induction cs with
  | nil => intro i _; cases i <;> rfl
  | cons c cs ih =>
    intro i hp
    cases i with
    | zero =>
      rw [removeRecAt, removeSpecAt, obsEqAllB, Bool.and_eq_true]
      refine ⟨hp c (List.mem_cons_self c cs), obsEqAllB_refl cs ?_⟩
      intro x _
      exact obsEqB_refl x
    | succ i =>
      rw [removeRecAt, removeSpecAt, obsEqAllB, Bool.and_eq_true]
      exact ⟨obsEqB_refl c,
        ih i (fun x hx => hp x (List.mem_cons_of_mem c hx))⟩

/-- On valid trees, `remove_recursive` computes exactly the specification's
remove (observationally: same structure, separators and leaf entries). -/
theorem removeRec_eq_spec (M : Nat) :
    ∀ t, validB M t = true → ∀ key,
      obsEqB (removeRec key t) (removeSpec key t) = true := by
  apply node_mem_induction
  · intro kvs gk _ key
    rw [removeRec, removeSpec]
    rw [eraseP_model]
    by_cases hj : kvs.findIdx (fun p => decide (p.1 = key)) < kvs.length
    · rw [if_pos hj]
      simp only [hj, if_true]
      simp [obsEqB]
    · rw [if_neg hj]
      simp only [hj, if_false]
      simp [obsEqB]
  · intro ks cs gk IH hv key
    have hsort : sortedLtB ks = true := by
      rw [validB, Bool.and_eq_true, Bool.and_eq_true, Bool.and_eq_true] at hv
      have := hv.1.1.2
      rw [orderedB, Bool.and_eq_true] at this
      exact this.1
    rw [removeRec, removeSpec, specChildIdx_eq key ks hsort, obsEqB,
      Bool.and_eq_true]
    refine ⟨by simp, ?_⟩
    apply removeRecAt_obsEq
    intro c hc
    exact IH c hc (validB_child hv hc) key

/-- The remove walker leaves the child list untouched when the recursive
removes do. -/
theorem removeRecAt_id (key : Int) :
    ∀ (cs : List Node) (i : Nat),
      (∀ c ∈ cs, removeRec key c = c) →
      removeRecAt key i cs = cs := by
  intro cs
  induction cs with
  | nil => intro i _; cases i <;> rfl
  | cons c cs ih =>
    intro i hp
    cases i with
    | zero =>
      rw [removeRecAt, hp c (List.mem_cons_self c cs)]
    | succ i =>
      rw [removeRecAt, ih i (fun x hx => hp x (List.mem_cons_of_mem c hx))]

/-- Removing an absent key leaves the tree unchanged (exact equality,
indeterminate tails included). -/
theorem removeRec_absent (key : Int) :
    ∀ t, hasKeyB key t = false → removeRec key t = t := by
  apply node_mem_induction
  · intro kvs gk habs
    rw [hasKeyB] at habs
    have hidx : kvs.findIdx (fun p => decide (p.1 = key)) = kvs.length := by
      apply List.findIdx_eq_length_of_false
      intro x hx
      have := List.any_eq_false.mp habs x hx
      simpa using this
    rw [removeRec]
    simp [hidx]
  · intro ks cs gk IH habs
    rw [hasKeyB] at habs
    rw [removeRec, removeRecAt_id key cs _
      (fun c hc => IH c hc (hasKeyAnyB_mem habs hc))]

/-- C9: on every valid tree, `remove(key)` descends by the standard rule and
erases exactly the first matching `(key, value)` pair of the reached leaf,
shifting the subsequent pairs left — observationally identical to the
specification's algorithm (`removeSpec`, which by construction touches no
other node and performs no rebalancing); when the key is absent the tree is
returned unchanged. -/
theorem remove_matches_spec (M : Nat) (t : Node) (hv : validB M t = true)
    (key : Int) :
    obsEqB (remove key t) (removeSpec key t) = true ∧
    (hasKeyB key t = false → remove key t = t) :=
  ⟨removeRec_eq_spec M t hv key, fun h => removeRec_absent key t h⟩

/-- C9, witness: on the scenario-1 tree, removing the present key `6`
matches the spec model, and removing the absent key `7` is the identity. -/
theorem remove_matches_spec_witness :
    obsEqB (remove 6 (insertList 4 [(10,1),(20,2),(5,3),(6,4)] emptyTree))
      (removeSpec 6 (insertList 4 [(10,1),(20,2),(5,3),(6,4)] emptyTree)) =
      true ∧
    remove 7 (insertList 4 [(10,1),(20,2),(5,3),(6,4)] emptyTree) =
      insertList 4 [(10,1),(20,2),(5,3),(6,4)] emptyTree :=
  ⟨(remove_matches_spec 4
      (insertList 4 [(10,1),(20,2),(5,3),(6,4)] emptyTree) (by decide) 6).1,
    (remove_matches_spec 4
      (insertList 4 [(10,1),(20,2),(5,3),(6,4)] emptyTree) (by decide) 7).2
      (by decide)⟩

/-! ### Split boundary and capacity (claim C6) -/

/-- Inserting at an in-range index grows the array by one. -/
theorem length_insertAt {i : Nat} {l : List α} (h : i ≤ l.length) (x : α) :
    (insertAt i x l).length = l.length + 1 := by
  simp only [insertAt, List.length_append, List.length_take,
    List.length_cons, List.length_drop]
  omega

/-- The insertion index never exceeds the number of valid keys. -/
theorem insChildIdx_le (key : Int) (kvs : List (Int × Int)) :
    insChildIdx key (kvs.map Prod.fst) ≤ kvs.length := by
  have := @List.findIdx_le_length _ (fun k => decide (key ≤ k))
    (kvs.map Prod.fst)
  simpa [insChildIdx] using this

/-- The upsert branch of `insert_recursive` is dead code: the scan loop
stops at the first key `≥ key`, so `keys[i-1] < key` always and the test
`keys[i-1] == key` can never succeed. -/
theorem overwrite_dead (key : Int) (kvs : List (Int × Int)) :
    ¬ (0 < insChildIdx key (kvs.map Prod.fst) ∧
      (kvs.getD (insChildIdx key (kvs.map Prod.fst) - 1) (0, 0)).1 = key) := by
  rintro ⟨hpos, heq⟩
  have hle : insChildIdx key (kvs.map Prod.fst) ≤ kvs.length :=
    insChildIdx_le key kvs
  have hlt : insChildIdx key (kvs.map Prod.fst) - 1 <
      (kvs.map Prod.fst).length := by
    simp only [List.length_map]
    omega
  have hlt2 : insChildIdx key (kvs.map Prod.fst) - 1 <
      (kvs.map Prod.fst).findIdx (fun k => decide (key ≤ k)) := by
    rw [insChildIdx] at hpos ⊢
    omega
  have hnot := List.not_of_lt_findIdx hlt2
  rw [← List.getD_eq_getElem _ (0 : Int) hlt,
    map_fst_getD (by simpa using hlt), heq] at hnot
  simp at hnot

/-- Below-capacity insertion into a leaf root: no split, one more entry. -/
theorem insert_leaf_no_split (M : Nat) (key value : Int)
    (kvs : List (Int × Int)) (gk : Nat → Int) (h : kvs.length + 1 < M) :
    insert M key value (.leaf kvs gk) =
      .leaf (insertAt (insChildIdx key (kvs.map Prod.fst)) (key, value) kvs)
        gk := by
  have hlen := length_insertAt (insChildIdx_le key kvs) (key, value)
  have hrec : insertRec M key value (.leaf kvs gk) =
      (.leaf (insertAt (insChildIdx key (kvs.map Prod.fst)) (key, value) kvs)
        gk, none) := by
    simp only [insertRec]
    rw [if_neg (overwrite_dead key kvs), if_neg (by omega)]
  simp only [insert, hrec]

/-- `insertList M (p :: ops)` is a single insert followed by the rest. -/
theorem insertList_cons (M : Nat) (p : Int × Int) (ops : List (Int × Int))
    (t : Node) :
    insertList M (p :: ops) t = insertList M ops (insert M p.1 p.2 t) := rfl

/-- A run of inserts that fits below capacity keeps the root a leaf and adds
one entry per insert. -/
theorem insertList_leaf_small (M : Nat) :
    ∀ (ops : List (Int × Int)) (kvs : List (Int × Int)) (gk : Nat → Int),
      kvs.length + ops.length < M →
      ∃ kvs2, insertList M ops (.leaf kvs gk) = .leaf kvs2 gk ∧
        kvs2.length = kvs.length + ops.length := by
  intro ops
  induction ops with
  | nil =>
    intro kvs gk _
    exact ⟨kvs, rfl, by simp⟩
  | cons p ops ih =>
    intro kvs gk h
    rw [insertList_cons,
      insert_leaf_no_split M p.1 p.2 kvs gk (by simp at h; omega)]
    obtain ⟨kvs2, heq, hlen⟩ :=
      ih (insertAt (insChildIdx p.1 (kvs.map Prod.fst)) (p.1, p.2) kvs) gk (by
        rw [length_insertAt (insChildIdx_le p.1 kvs)]
        simp at h
        omega)
    refine ⟨kvs2, heq, ?_⟩
    rw [hlen, length_insertAt (insChildIdx_le p.1 kvs)]
    simp
    omega

/-- Insertion into an exactly-full leaf root: one split, a two-leaf tree
with `M/2` and `M - M/2` entries. -/
theorem insert_leaf_split (M : Nat) (hM : 2 ≤ M) (key value : Int)
    (kvs : List (Int × Int)) (gk : Nat → Int) (h : kvs.length + 1 = M) :
    ∃ med kl gl kr gr gg,
      insert M key value (.leaf kvs gk) =
        .internal [med] [.leaf kl gl, .leaf kr gr] gg ∧
      kl.length = M / 2 ∧ kr.length = M - M / 2 := by
  have hlen := length_insertAt (insChildIdx_le key kvs) (key, value)
  have hrec : insertRec M key value (.leaf kvs gk) =
      splitLeaf M
        (insertAt (insChildIdx key (kvs.map Prod.fst)) (key, value) kvs)
        gk := by
    simp only [insertRec]
    rw [if_neg (overwrite_dead key kvs), if_pos (by omega)]
  refine ⟨(((insertAt (insChildIdx key (kvs.map Prod.fst)) (key, value)
      kvs).drop (M / 2)).headD (0, 0)).1,
    (insertAt (insChildIdx key (kvs.map Prod.fst)) (key, value)
      kvs).take (M / 2),
    fun j => keyAt ((insertAt (insChildIdx key (kvs.map Prod.fst))
      (key, value) kvs).map Prod.fst) gk j,
    (insertAt (insChildIdx key (kvs.map Prod.fst)) (key, value)
      kvs).drop (M / 2),
    fun _ => 0, fun _ => 0, ?_, ?_, ?_⟩
  · simp only [insert, hrec, splitLeaf]
  · simp only [List.length_take]
    omega
  · simp only [List.length_drop]
    omega

/-- Pointwise reading of `belowCapAllB`. -/
theorem belowCapAllB_forall (M : Nat) :
    ∀ cs : List Node, belowCapAllB M cs = true ↔
      ∀ c ∈ cs, belowCapB M c = true := by
  intro cs
  induction cs with
  | nil => simp [belowCapAllB]
  | cons c cs ih =>
    simp only [belowCapAllB, Bool.and_eq_true, ih, List.mem_cons]
    constructor
    · rintro ⟨h1, h2⟩ x (rfl | hx)
      · exact h1
      · exact h2 x hx
    · intro h
      exact ⟨h c (Or.inl rfl), fun x hx => h x (Or.inr hx)⟩

/-- `insert_recursive` keeps every node strictly below capacity: the split
guard `num_keys >= M` fires exactly when a node becomes full and both split
halves are strictly smaller than `M`. -/
theorem insertRec_cap (M : Nat) (hM : 2 ≤ M) (key value : Int) :
    ∀ t, belowCapB M t = true →
      belowCapB M (insertRec M key value t).1 = true ∧
      ∀ med sib, (insertRec M key value t).2 = some (med, sib) →
        belowCapB M sib = true := by
  apply node_mem_induction
  · intro kvs gk hcap
    rw [belowCapB, decide_eq_true_eq] at hcap
    have hlen := length_insertAt (insChildIdx_le key kvs) (key, value)
    simp only [insertRec]
    rw [if_neg (overwrite_dead key kvs)]
    by_cases hg : M ≤
        (insertAt (insChildIdx key (kvs.map Prod.fst)) (key, value)
          kvs).length
    · rw [if_pos hg]
      constructor
      · simp only [splitLeaf, belowCapB, decide_eq_true_eq, List.length_take]
        omega
      · intro med sib h
        simp only [splitLeaf, Option.some.injEq, Prod.mk.injEq] at h
        rw [← h.2]
        simp only [belowCapB, decide_eq_true_eq, List.length_drop]
        omega
    · rw [if_neg hg]
      exact ⟨by simp only [belowCapB, decide_eq_true_eq]; omega,
        by intro med sib h; simp at h⟩
  · intro ks cs gk IH hcap
    rw [belowCapB, Bool.and_eq_true, decide_eq_true_eq] at hcap
    have hcsall := (belowCapAllB_forall M cs).mp hcap.2
    rcases hm : insertRecAt M key value (insChildIdx key ks) cs with
      _ | ⟨cs₁, sp⟩
    · simp only [insertRec, hm]
      refine ⟨?_, by intro med sib h; simp at h⟩
      rw [belowCapB, Bool.and_eq_true, decide_eq_true_eq]
      exact ⟨hcap.1, hcap.2⟩
    · obtain ⟨c, hc, hsp, hmem⟩ :=
        insertRecAt_spec M key value (insChildIdx key ks) cs cs₁ sp hm
      have hrec := IH c hc (hcsall c hc)
      have hcs₁ : ∀ x ∈ cs₁, belowCapB M x = true := by
        intro x hx
        rcases hmem x hx with h' | h'
        · exact hcsall x h'
        · rw [h']
          exact hrec.1
      cases sp with
      | none =>
        simp only [insertRec, hm]
        refine ⟨?_, by intro med sib h; simp at h⟩
        rw [belowCapB, Bool.and_eq_true, decide_eq_true_eq]
        exact ⟨hcap.1, (belowCapAllB_forall M cs₁).mpr hcs₁⟩
      | some ms =>
        obtain ⟨med, sib⟩ := ms
        have hsib : belowCapB M sib = true := hrec.2 med sib hsp
        have hik : insChildIdx key ks ≤ ks.length :=
          @List.findIdx_le_length _ (fun k => decide (key ≤ k)) ks
        have hklen := length_insertAt hik med
        have hcs' : ∀ x ∈ insertAt (insChildIdx key ks + 1) sib cs₁,
            belowCapB M x = true := by
          intro x hx
          rcases mem_insertAt hx with rfl | hx
          · exact hsib
          · exact hcs₁ x hx
        simp only [insertRec, hm]
        by_cases hg : M ≤ (insertAt (insChildIdx key ks) med ks).length
        · rw [if_pos hg]
          constructor
          · simp only [splitInternal, belowCapB, Bool.and_eq_true,
              decide_eq_true_eq]
            refine ⟨by simp only [List.length_take]; omega, ?_⟩
            apply (belowCapAllB_forall M _).mpr
            intro x hx
            exact hcs' x (List.take_subset _ _ hx)
          · intro med' sib' h
            simp only [splitInternal, Option.some.injEq, Prod.mk.injEq] at h
            rw [← h.2]
            simp only [belowCapB, Bool.and_eq_true, decide_eq_true_eq]
            refine ⟨by simp only [List.length_drop]; omega, ?_⟩
            apply (belowCapAllB_forall M _).mpr
            intro x hx
            exact hcs' x (List.drop_subset _ _ hx)
        · rw [if_neg hg]
          refine ⟨?_, by intro med' sib' h; simp at h⟩
          rw [belowCapB, Bool.and_eq_true, decide_eq_true_eq]
          exact ⟨by omega, (belowCapAllB_forall M _).mpr hcs'⟩

/-- `insert` keeps every node strictly below capacity. -/
theorem insert_cap (M : Nat) (hM : 2 ≤ M) (key value : Int) (t : Node)
    (h : belowCapB M t = true) :
    belowCapB M (insert M key value t) = true := by
  unfold insert
  rcases hm : insertRec M key value t with ⟨t', sp⟩
  have hb := insertRec_cap M hM key value t h
  rw [hm] at hb
  cases sp with
  | none => exact hb.1
  | some ms =>
    obtain ⟨med, sib⟩ := ms
    simp only [belowCapB, belowCapAllB, Bool.and_eq_true, decide_eq_true_eq]
    exact ⟨by simp; omega, hb.1, hb.2 med sib rfl, trivial⟩

/-- Any insert sequence from the empty tree keeps every node strictly below
capacity. -/
theorem insertList_cap (M : Nat) (hM : 2 ≤ M) :
    ∀ (ops : List (Int × Int)) (t : Node), belowCapB M t = true →
      belowCapB M (insertList M ops t) = true := by
  intro ops
  induction ops with
  | nil => intro t h; exact h
  | cons p ops ih =>
    intro t h
    rw [insertList_cons]
    exact ih _ (insert_cap M hM p.1 p.2 t h)

/-- C6: with fan-out `M ≥ 4`, inserting `M-1` distinct keys into the empty
tree causes no split (the root is still a leaf holding `M-1` entries); the
`M`-th distinct-key insert into that full leaf causes exactly one split,
yielding a root with one separator over exactly two leaves of `M/2` and
`M - M/2` entries; and splits trigger exactly at `num_keys = M`: after every
insert sequence every node holds strictly fewer than `M` keys, so the
capacity-`M` arrays never overflow. -/
theorem split_boundary (M : Nat) (hM : 4 ≤ M) :
    (∀ ops : List (Int × Int), ops.length = M - 1 →
      (ops.map Prod.fst).Nodup →
      ∃ kvs2 gk2, insertList M ops emptyTree = .leaf kvs2 gk2 ∧
        kvs2.length = M - 1) ∧
    (∀ ops : List (Int × Int), ops.length = M - 1 →
      (ops.map Prod.fst).Nodup → ∀ k v : Int, k ∉ ops.map Prod.fst →
      ∃ med kl gl kr gr gg,
        insert M k v (insertList M ops emptyTree) =
          .internal [med] [.leaf kl gl, .leaf kr gr] gg ∧
        kl.length = M / 2 ∧ kr.length = M - M / 2) ∧
    (∀ ops : List (Int × Int),
      belowCapB M (insertList M ops emptyTree) = true) := by
  have hsmall : ∀ ops : List (Int × Int), ops.length = M - 1 →
      ∃ kvs2, insertList M ops emptyTree = .leaf kvs2 (fun _ => 0) ∧
        kvs2.length = M - 1 := by
    intro ops hlen
    obtain ⟨kvs2, heq, hl⟩ := insertList_leaf_small M ops [] (fun _ => 0)
      (by simp [hlen]; omega)
    rw [emptyTree]
    exact ⟨kvs2, heq, by rw [hl, hlen]; simp⟩
  refine ⟨?_, ?_, ?_⟩
  · intro ops hlen _
    obtain ⟨kvs2, heq, hl⟩ := hsmall ops hlen
    exact ⟨kvs2, _, heq, hl⟩
  · intro ops hlen _ k v _
    obtain ⟨kvs2, heq, hl⟩ := hsmall ops hlen
    rw [heq]
    exact insert_leaf_split M (by omega) k v kvs2 _ (by omega)
  · intro ops
    apply insertList_cap M (by omega)
    rw [emptyTree, belowCapB, decide_eq_true_eq]
    simp
    omega

/-- C6, witness: `M = 4`, keys `1, 2, 3` build a three-entry leaf; the
fourth distinct key `4` splits it into a root separator over leaves of two
entries each; capacity holds for a sample sequence. -/
theorem split_boundary_witness :
    (∃ kvs2 gk2,
      insertList 4 [(1,1),(2,2),(3,3)] emptyTree = .leaf kvs2 gk2 ∧
        kvs2.length = 3) ∧
    (∃ med kl gl kr gr gg,
      insert 4 4 4 (insertList 4 [(1,1),(2,2),(3,3)] emptyTree) =
        .internal [med] [.leaf kl gl, .leaf kr gr] gg ∧
      kl.length = 2 ∧ kr.length = 2) ∧
    belowCapB 4 (insertList 4 [(1,1),(2,2),(3,3),(4,4),(5,5)] emptyTree) =
      true := by
  have h := split_boundary 4 (by norm_num)
  refine ⟨h.1 [(1,1),(2,2),(3,3)] (by norm_num) (by decide), ?_, ?_⟩
  · have h2 := h.2.1 [(1,1),(2,2),(3,3)] (by norm_num) (by decide) 4 4
      (by decide)
    exact h2
  · exact h.2.2 [(1,1),(2,2),(3,3),(4,4),(5,5)]

/-! ### Claim theorems: insertion bugs -/

/-- C1: insert-then-find FAILS on the code.  With `M = 4`, inserting
`(10,1), (20,2), (5,3), (6,4)` builds the tree of the spec's scenario 1
(root separator `10`, left leaf `[5,6]`, right leaf `[10,20]`).  A further
`insert(10, 999)` descends LEFT of the separator equal to `10`
(`insert_recursive` stops at the first key `≥ key`) and stores `(10,999)` in
the left leaf, while every find variant descends RIGHT (`key >= keys[i]`
skips the separator) and returns the stale value `1` from the right leaf —
not `999` as the claim requires. -/
theorem insert_then_find_returns_stale :
    findLinear 10
      (insert 4 10 999 (insertList 4 [(10,1),(20,2),(5,3),(6,4)] emptyTree))
      = some 1 ∧
    findBinary 10
      (insert 4 10 999 (insertList 4 [(10,1),(20,2),(5,3),(6,4)] emptyTree))
      = some 1 ∧
    findSIMD 10
      (insert 4 10 999 (insertList 4 [(10,1),(20,2),(5,3),(6,4)] emptyTree))
      = some 1 := by
  refine ⟨by decide, by decide, by decide⟩

/-- C2: insert is NOT an upsert.  The overwrite branch of `insert_recursive`
tests `keys[i-1] == key` after a loop that stops at the first key `≥ key`,
so it can never fire; inserting key `42` twice (default `M = 256`) leaves two
leaf slots carrying `42`. -/
theorem insert_duplicates_key :
    countKey 42 (insertList 256 [(42, 1), (42, 2)] emptyTree) = 2 := by
  decide

/-- C4: the strict per-node ordering invariant FAILS after a duplicate
insert: two inserts of key `42` leave the root leaf with keys `[42, 42]`,
violating `keys[0] < keys[1]`. -/
theorem ordering_fails_after_duplicate_insert :
    orderedB (insertList 256 [(42, 1), (42, 2)] emptyTree) = false := by
  decide

end OptMap
